import Mathlib

/-!
Verification of the `eosjs2-serialize.ts` binary serialization engine.

The development shallowly embeds the source file's data model and operations:

* `Buf` models the observable state of a `SerialBuffer` (the written bytes and
  the read cursor).  JavaScript numbers written into the backing `Uint8Array`
  are truncated modulo 256, 32-bit bitwise operators work modulo `2 ^ 32`, and
  signed results are reported through `jsToInt32`.
* `SerialBuffer` (further below) models the full class including the backing
  array with spare capacity, `reserve`, and the geometric growth loop; it is
  used for the append-only write invariants.
* The runtime type system (`Ty`, `serialize`, `deserialize`) embeds the struct,
  array and optional serializers, and a heap-based model (`TypeNode`, `Store`,
  `getType`, `getTypesFromAbi`) embeds the registry with its shared, mutable
  type nodes.

Errors thrown by the source are modelled with `Err`; every fallible operation
returns `Except Err _`.
-/

/-- Error kinds thrown by the source (`throw new Error(...)` sites). -/
inductive Err where
  /-- `'Read past end of buffer'` -/
  | bufferUnderrun
  /-- `'Binary data has incorrect size'` -/
  | sizeMismatch
  /-- `'Asset must begin with a number'` -/
  | malformedAsset
  /-- `'Unknown type: ' + name` -/
  | unknownType (name : String)
  /-- `'Unknown action ' + name + ...` -/
  | unknownAction (name : String)
  /-- `'missing ' + this.name + '.' + field.name + ...` -/
  | missingField (structName fieldName : String)
  /-- The source is dynamically typed; feeding a value of the wrong shape into
  a codec raises a TypeError.  All such failures are collapsed into this one
  constructor. -/
  | typeMismatch
  /-- `serializeUnknown` / `deserializeUnknown`:
  `"Don't know how to serialize " + this.name` -/
  | unknownSerialize (name : String)
  /-- Models non-termination of the source (alias cycles make `getType`
  recurse forever); returned when the modelling fuel runs out. -/
  | fuelExhausted
deriving Repr, DecidableEq

/-- Observable state of a `SerialBuffer`: the bytes written so far
(`asUint8Array`) and the read cursor `readPos`. -/
structure Buf where
  data : List Nat
  readPos : Nat
deriving Repr, DecidableEq

/-- `push(...v)` for one byte.  Storing into a `Uint8Array` truncates the
value modulo 256. -/
def Buf.push (b : Buf) (v : Nat) : Buf :=
  { b with data := b.data ++ [v % 256] }

/-- `pushArray(v)`: appends the bytes, each truncated modulo 256 by the
`Uint8Array` store. -/
def Buf.pushArray (b : Buf) (vs : List Nat) : Buf :=
  { b with data := b.data ++ vs.map (· % 256) }

/-- `get()`: read one byte, throwing `'Read past end of buffer'` when the
cursor is at or past the written length. -/
def Buf.get (b : Buf) : Except Err (Nat × Buf) :=
  if b.readPos < b.data.length then
    .ok (b.data.getD b.readPos 0, { b with readPos := b.readPos + 1 })
  else
    .error .bufferUnderrun

/-- `getUint8Array(len)`: a view of the next `len` bytes, advancing the
cursor; fails when fewer than `len` bytes remain. -/
def Buf.getUint8Array (b : Buf) (len : Nat) : Except Err (List Nat × Buf) :=
  if b.readPos + len ≤ b.data.length then
    .ok ((b.data.drop b.readPos).take len, { b with readPos := b.readPos + len })
  else
    .error .bufferUnderrun

/-- `pushUint8ArrayChecked(v, len)`. -/
def Buf.pushUint8ArrayChecked (b : Buf) (vs : List Nat) (len : Nat) : Except Err Buf :=
  if vs.length ≠ len then .error .sizeMismatch else .ok (b.pushArray vs)

/-- The loop body of `pushVaruint32`, after the initial `>>> 0` coercion of
the argument: while `v >>> 7` is non-zero push `0x80 | (v & 0x7f)` and shift,
otherwise push the final byte. -/
def pushVaruint32Go (b : Buf) (v : Nat) : Buf :=
  if v >>> 7 ≠ 0 then pushVaruint32Go (b.push (0x80 ||| (v &&& 0x7f))) (v >>> 7)
  else b.push v
termination_by v
decreasing_by
  simp only [Nat.shiftRight_eq_div_pow] at *
  omega

/-- `pushVaruint32(v)`.  The first `v >>> 7` applies JavaScript's `ToUint32`,
so the argument enters the loop reduced modulo `2 ^ 32`. -/
def Buf.pushVaruint32 (b : Buf) (v : Nat) : Buf :=
  pushVaruint32Go b (v % 2 ^ 32)

/-- The loop of `getVaruint32`: accumulate 7-bit groups (`v |= (b & 0x7f) <<
bit`, with JavaScript's 32-bit `<<` shifting by `bit % 32` and truncating
modulo `2 ^ 32`) until a byte without the continuation flag.  Reading past the
end of the buffer throws.  This inlines `get()` so that the recursion is
visibly bounded by the written length. -/
def getVaruint32Loop (b : Buf) (v bit : Nat) : Except Err (Nat × Buf) :=
  if h : b.readPos < b.data.length then
    let byte := b.data.getD b.readPos 0
    let v' := v ||| ((byte &&& 0x7f) <<< (bit % 32)) % 2 ^ 32
    if byte &&& 0x80 = 0 then .ok (v', { b with readPos := b.readPos + 1 })
    else getVaruint32Loop { b with readPos := b.readPos + 1 } v' (bit + 7)
  else .error .bufferUnderrun
termination_by b.data.length - b.readPos
decreasing_by
  omega

/-- `getVaruint32()`. -/
def Buf.getVaruint32 (b : Buf) : Except Err (Nat × Buf) :=
  getVaruint32Loop b 0 0

/-- JavaScript `ToUint32` of an integer value. -/
def jsToUint32 (i : Int) : Nat := (i % (2 ^ 32 : Int)).toNat

/-- JavaScript `ToInt32` of an unsigned 32-bit value held as a `Nat`. -/
def jsToInt32 (n : Nat) : Int :=
  if n % 2 ^ 32 < 2 ^ 31 then (n % 2 ^ 32 : Nat) else (n % 2 ^ 32 : Nat) - 2 ^ 32

/-- `pushVarint32(v)`: `this.pushVaruint32((v << 1) ^ (v >> 31))`.  On int32
operands `v << 1` has unsigned value `2 * v mod 2 ^ 32` and `v >> 31` is all
ones exactly when `v` is negative; `^` acts on the unsigned representations. -/
def Buf.pushVarint32 (b : Buf) (i : Int) : Buf :=
  b.pushVaruint32 (jsToUint32 (2 * i) ^^^ (if i < 0 then 0xFFFFFFFF else 0))

/-- `getVarint32()`: undo the zigzag transform; for odd `v` the source
computes `((~v) >> 1) | 0x8000_0000` with int32 `~`, arithmetic shift
(flooring division by 2) and int32 `|`. -/
def Buf.getVarint32 (b : Buf) : Except Err (Int × Buf) :=
  match b.getVaruint32 with
  | .error e => .error e
  | .ok (v, b') =>
    if v &&& 1 ≠ 0 then
      .ok (jsToInt32 (jsToUint32 ((-(jsToInt32 v) - 1) / 2) ||| 0x80000000), b')
    else
      .ok ((v >>> 1 : Nat), b')

/-! ### Bit-arithmetic helper lemmas -/

theorem lor_shiftLeft_eq_add {a k : Nat} (b : Nat) (h : a < 2 ^ k) :
    a ||| b <<< k = a + b <<< k := by
  apply Nat.eq_of_testBit_eq
  intro i
  rw [Nat.testBit_lor, Nat.testBit_shiftLeft]
  rcases Nat.lt_or_ge i k with hik | hik
  · have hge : decide (i ≥ k) = false := by
      simp only [ge_iff_le, decide_eq_false_iff_not, Nat.not_le]
      exact hik
    rw [hge, Bool.false_and, Bool.or_false]
    obtain ⟨j, rfl⟩ : ∃ j, k = i + (j + 1) := ⟨k - i - 1, by omega⟩
    rw [Nat.testBit_to_div_mod, Nat.testBit_to_div_mod, Nat.shiftLeft_eq]
    have he : b * 2 ^ (i + (j + 1)) = b * 2 ^ j * 2 * 2 ^ i := by ring
    rw [he, Nat.add_mul_div_right _ _ (Nat.pos_pow_of_pos i (by norm_num))]
    generalize a / 2 ^ i = d
    generalize b * 2 ^ j = c
    congr 1
    simp only [eq_iff_iff]
    omega
  · have hge : decide (i ≥ k) = true := by simp [hik]
    have ha : a.testBit i = false :=
      Nat.testBit_lt_two_pow (lt_of_lt_of_le h (Nat.pow_le_pow_right (by norm_num) hik))
    rw [hge, Bool.true_and, ha, Bool.false_or]
    have hdd : (a + b <<< k) / 2 ^ i = b / 2 ^ (i - k) := by
      have hsplit : (2 : Nat) ^ i = 2 ^ k * 2 ^ (i - k) := by
        rw [← pow_add]
        congr 1
        omega
      rw [hsplit, ← Nat.div_div_eq_div_mul, Nat.shiftLeft_eq, mul_comm b (2 ^ k),
        Nat.add_mul_div_left _ _ (Nat.pos_pow_of_pos k (by norm_num)),
        Nat.div_eq_of_lt h, Nat.zero_add]
    rw [Nat.testBit_to_div_mod, Nat.testBit_to_div_mod, hdd]

theorem xor_two_pow_sub_one {w : Nat} (a : Nat) (h : a < 2 ^ w) :
    a ^^^ (2 ^ w - 1) = 2 ^ w - 1 - a := by
  have h1 : a ^^^ (2 ^ w - 1) = ((BitVec.ofNat w a) ^^^ (BitVec.allOnes w)).toNat := by
    rw [BitVec.toNat_xor, BitVec.toNat_ofNat, BitVec.toNat_allOnes, Nat.mod_eq_of_lt h]
  rw [h1, BitVec.xor_allOnes, BitVec.toNat_not, BitVec.toNat_ofNat, Nat.mod_eq_of_lt h]

theorem lor_two_pow_of_testBit {x k : Nat} (h : x.testBit k = true) :
    x ||| 2 ^ k = x := by
  apply Nat.eq_of_testBit_eq
  intro i
  rw [Nat.testBit_lor, Nat.testBit_two_pow]
  rcases eq_or_ne k i with rfl | hne
  · simp [h]
  · simp [hne]

theorem and_127_eq_mod (x : Nat) : x &&& 127 = x % 128 := by
  have : (127 : Nat) = 2 ^ 7 - 1 := by norm_num
  rw [this, Nat.and_pow_two_sub_one_eq_mod]

theorem and_128_of_lt {v : Nat} (h : v < 128) : v &&& 128 = 0 := by
  have h1 : (128 : Nat) = 2 ^ 7 := by norm_num
  rw [h1, Nat.and_two_pow, Nat.testBit_lt_two_pow (by norm_num at h1 ⊢; omega)]
  rfl

theorem and_128_of_ge {v : Nat} (h1 : 128 ≤ v) (h2 : v < 256) : v &&& 128 = 128 := by
  have he : (128 : Nat) = 2 ^ 7 := by norm_num
  rw [he, Nat.and_two_pow, Nat.testBit_to_div_mod]
  have hd : v / 2 ^ 7 = 1 := by
    norm_num
    omega
  rw [hd]
  norm_num

/-- The byte list appended to the buffer by `pushVaruint32`'s loop. -/
def varuintChars (v : Nat) : List Nat :=
  if v >>> 7 ≠ 0 then (0x80 ||| (v &&& 0x7f)) :: varuintChars (v >>> 7) else [v]
termination_by v
decreasing_by
  simp only [Nat.shiftRight_eq_div_pow] at *
  omega

theorem byte128_eq {x : Nat} (h : x < 128) : 128 ||| x = 128 + x := by
  have h1 : x ||| 1 <<< 7 = x + 1 <<< 7 := lor_shiftLeft_eq_add 1 (by norm_num; omega)
  have h2 : (1 : Nat) <<< 7 = 128 := by rw [Nat.shiftLeft_eq]
  rw [h2] at h1
  rw [Nat.lor_comm, h1, Nat.add_comm]

theorem varuintChars_ne_nil (v : Nat) : varuintChars v ≠ [] := by
  rw [varuintChars]
  split <;> simp

theorem pushVaruint32Go_eq (v : Nat) :
    ∀ b : Buf, pushVaruint32Go b v = { b with data := b.data ++ varuintChars v } := by
  induction v using Nat.strong_induction_on with
  | _ v ih =>
  intro b
  rw [pushVaruint32Go, varuintChars]
  by_cases h7 : v >>> 7 = 0
  · have hlt : v < 128 := by
      rw [Nat.shiftRight_eq_div_pow] at h7
      norm_num at h7
      omega
    simp only [h7, ne_eq, not_true_eq_false, if_false, ite_false, not_false_eq_true]
    simp [Buf.push, Nat.mod_eq_of_lt (show v < 256 by omega)]
  · have hge : 128 ≤ v := by
      rw [Nat.shiftRight_eq_div_pow] at h7
      norm_num at h7
      omega
    have hdec : v >>> 7 < v := by
      rw [Nat.shiftRight_eq_div_pow]
      norm_num
      omega
    have hbyte : (0x80 ||| (v &&& 0x7f)) = 128 + v % 128 := by
      rw [and_127_eq_mod]
      exact byte128_eq (Nat.mod_lt _ (by norm_num))
    simp only [h7, ne_eq, not_false_eq_true, if_true, ite_true]
    rw [ih _ hdec]
    simp [Buf.push, hbyte, Nat.mod_eq_of_lt (show 128 + v % 128 < 256 by omega)]

theorem getD_at_append (d : List Nat) (x : Nat) (r : List Nat) :
    (d ++ x :: r).getD d.length 0 = x := by
  rw [List.getD_eq_getElem?_getD, List.getElem?_append_right (le_refl d.length)]
  simp

theorem getVaruint32Loop_append (v : Nat) :
    ∀ bit acc (d rest : List Nat), bit ≤ 31 → v < 2 ^ (32 - bit) → acc < 2 ^ bit →
    getVaruint32Loop ⟨d ++ varuintChars v ++ rest, d.length⟩ acc bit
      = .ok (acc + v <<< bit,
          ⟨d ++ varuintChars v ++ rest, d.length + (varuintChars v).length⟩) := by
  induction v using Nat.strong_induction_on with
  | _ v ih =>
  intro bit acc d rest hbit hv hacc
  by_cases h7 : v >>> 7 = 0
  · have hlt : v < 128 := by
      rw [Nat.shiftRight_eq_div_pow] at h7
      norm_num at h7
      omega
    have hvc : varuintChars v = [v] := by
      rw [varuintChars]
      simp [h7]
    rw [hvc]
    rw [getVaruint32Loop]
    have hcons : d ++ [v] ++ rest = d ++ v :: rest := by simp
    have hlen : d.length < (d ++ [v] ++ rest).length := by
      simp
    rw [dif_pos hlen]
    simp only [hcons, getD_at_append]
    have hand : v &&& 127 = v := by
      rw [and_127_eq_mod, Nat.mod_eq_of_lt hlt]
    have hmod32 : bit % 32 = bit := Nat.mod_eq_of_lt (by omega)
    have hshift : v <<< bit < 2 ^ 32 := by
      rw [Nat.shiftLeft_eq]
      calc v * 2 ^ bit < 2 ^ (32 - bit) * 2 ^ bit :=
            mul_lt_mul_of_pos_right hv (Nat.pos_pow_of_pos bit (by norm_num))
        _ = 2 ^ 32 := by
            rw [← pow_add]
            congr 1
            omega
    rw [if_pos (and_128_of_lt hlt)]
    simp only [hand, hmod32, Nat.mod_eq_of_lt hshift, lor_shiftLeft_eq_add v hacc]
    simp
  · have hge : 128 ≤ v := by
      rw [Nat.shiftRight_eq_div_pow] at h7
      norm_num at h7
      omega
    have hdec : v >>> 7 < v := by
      rw [Nat.shiftRight_eq_div_pow]
      norm_num
      omega
    have hbit24 : bit ≤ 24 := by
      by_contra hcon
      have h1 : 32 - bit ≤ 7 := by omega
      have h2 : (2 : Nat) ^ (32 - bit) ≤ 2 ^ 7 := Nat.pow_le_pow_right (by norm_num) h1
      norm_num at h2
      omega
    have hbyte : (0x80 ||| (v &&& 0x7f)) = 128 + v % 128 := by
      rw [and_127_eq_mod]
      exact byte128_eq (Nat.mod_lt _ (by norm_num))
    have hvc : varuintChars v = (128 + v % 128) :: varuintChars (v >>> 7) := by
      rw [varuintChars]
      simp [h7, hbyte]
    rw [hvc]
    rw [getVaruint32Loop]
    have hcons : d ++ (128 + v % 128) :: varuintChars (v >>> 7) ++ rest
        = d ++ (128 + v % 128) :: (varuintChars (v >>> 7) ++ rest) := by simp
    have hlen : d.length < (d ++ (128 + v % 128) :: varuintChars (v >>> 7) ++ rest).length := by
      simp
    rw [dif_pos hlen]
    simp only [hcons, getD_at_append]
    have hand : (128 + v % 128) &&& 127 = v % 128 := by
      rw [and_127_eq_mod]
      omega
    have hflag : (128 + v % 128) &&& 128 = 128 :=
      and_128_of_ge (by omega) (by omega)
    rw [if_neg (by rw [hflag]; norm_num)]
    have hmod32 : bit % 32 = bit := Nat.mod_eq_of_lt (by omega)
    have hshift : (v % 128) <<< bit < 2 ^ 32 := by
      rw [Nat.shiftLeft_eq]
      have h1 : v % 128 < 2 ^ 7 := by
        norm_num
        exact Nat.mod_lt _ (by norm_num)
      calc (v % 128) * 2 ^ bit < 2 ^ 7 * 2 ^ bit :=
            mul_lt_mul_of_pos_right h1 (Nat.pos_pow_of_pos bit (by norm_num))
        _ ≤ 2 ^ 32 := by
            rw [← pow_add]
            apply Nat.pow_le_pow_right (by norm_num)
            omega
    simp only [hand, hmod32, Nat.mod_eq_of_lt hshift]
    rw [lor_shiftLeft_eq_add (v % 128) hacc]
    have hstep : d ++ (128 + v % 128) :: (varuintChars (v >>> 7) ++ rest)
        = (d ++ [128 + v % 128]) ++ varuintChars (v >>> 7) ++ rest := by simp
    have hlen1 : d.length + 1 = (d ++ [128 + v % 128]).length := by simp
    rw [hstep, hlen1]
    have hpow : (2 : Nat) ^ (bit + 7) = 2 ^ bit * 128 := by
      rw [pow_add]
      norm_num
    rw [ih (v >>> 7) hdec (bit + 7) (acc + (v % 128) <<< bit) (d ++ [128 + v % 128]) rest
      (by omega)
      (by
        rw [Nat.shiftRight_eq_div_pow]
        norm_num
        rw [Nat.div_lt_iff_lt_mul (by norm_num : (0:Nat) < 128)]
        have : (2 : Nat) ^ (32 - (bit + 7)) * 128 = 2 ^ (32 - bit) := by
          rw [show (128 : Nat) = 2 ^ 7 by norm_num, ← pow_add]
          congr 1
          omega
        omega)
      (by
        rw [Nat.shiftLeft_eq, hpow]
        have h1 : v % 128 ≤ 127 := by omega
        have h2 : (0 : Nat) < 2 ^ bit := Nat.pos_pow_of_pos bit (by norm_num)
        have h3 : (v % 128) * 2 ^ bit ≤ 127 * 2 ^ bit := Nat.mul_le_mul_right _ h1
        omega)]
    congr 2
    · rw [Nat.shiftLeft_eq, Nat.shiftLeft_eq, Nat.shiftLeft_eq, Nat.shiftRight_eq_div_pow, hpow]
      have hsplit : v = 128 * (v / 128) + v % 128 := (Nat.div_add_mod v 128).symm
      norm_num
      conv_rhs => rw [hsplit]
      ring
    · simp [hvc]
      omega

theorem varuintChars_minimal (v : Nat) :
    ∃ pre last, varuintChars v = pre ++ [last] ∧ last < 128 ∧
      (∀ x ∈ pre, 128 ≤ x) ∧ (pre ≠ [] → last ≠ 0) := by
  induction v using Nat.strong_induction_on with
  | _ v ih =>
  by_cases h7 : v >>> 7 = 0
  · have hlt : v < 128 := by
      rw [Nat.shiftRight_eq_div_pow] at h7
      norm_num at h7
      omega
    exact ⟨[], v, by rw [varuintChars]; simp [h7], hlt, by simp, by simp⟩
  · have hge : 128 ≤ v := by
      rw [Nat.shiftRight_eq_div_pow] at h7
      norm_num at h7
      omega
    have hdec : v >>> 7 < v := by
      rw [Nat.shiftRight_eq_div_pow]
      norm_num
      omega
    obtain ⟨pre', last', heq, hl, hpre, hlast⟩ := ih (v >>> 7) hdec
    have hbyte : (0x80 ||| (v &&& 0x7f)) = 128 + v % 128 := by
      rw [and_127_eq_mod]
      exact byte128_eq (Nat.mod_lt _ (by norm_num))
    refine ⟨(128 + v % 128) :: pre', last', ?_, hl, ?_, ?_⟩
    · rw [varuintChars]
      simp only [h7, ne_eq, not_false_eq_true, if_true, ite_true, hbyte, heq, List.cons_append]
    · intro x hx
      rcases List.mem_cons.mp hx with rfl | hx'
      · omega
      · exact hpre x hx'
    · intro _
      by_cases hp : pre' = []
      · subst hp
        by_cases h77 : (v >>> 7) >>> 7 = 0
        · have : varuintChars (v >>> 7) = [v >>> 7] := by
            rw [varuintChars]
            simp [h77]
          rw [this] at heq
          simp at heq
          omega
        · have hne := varuintChars_ne_nil ((v >>> 7) >>> 7)
          have : varuintChars (v >>> 7)
              = (0x80 ||| ((v >>> 7) &&& 0x7f)) :: varuintChars ((v >>> 7) >>> 7) := by
            rw [varuintChars]
            simp [h77]
          rw [this] at heq
          simp at heq
          exact absurd heq.2 hne
      · exact hlast hp

theorem varuint_roundtrip (v : Nat) (hv : v < 2 ^ 32) (b : Buf) (hb : b.readPos = b.data.length) :
    (b.pushVaruint32 v).getVaruint32
      = .ok (v, ⟨(b.pushVaruint32 v).data, (b.pushVaruint32 v).data.length⟩) := by
  have hpush : b.pushVaruint32 v = { b with data := b.data ++ varuintChars v } := by
    rw [Buf.pushVaruint32, Nat.mod_eq_of_lt hv, pushVaruint32Go_eq]
  rw [hpush, Buf.getVaruint32]
  have hstep := getVaruint32Loop_append v 0 0 b.data [] (by omega) (by simpa using hv)
    (by norm_num)
  rw [List.append_nil] at hstep
  show getVaruint32Loop { data := b.data ++ varuintChars v, readPos := b.readPos } 0 0 = _
  rw [hb, hstep]
  simp [Nat.shiftLeft_zero]

theorem getVarint32_of_ok {b : Buf} {v : Nat} {b' : Buf}
    (h : b.getVaruint32 = .ok (v, b')) :
    b.getVarint32
      = if v &&& 1 ≠ 0 then
          .ok (jsToInt32 (jsToUint32 ((-(jsToInt32 v) - 1) / 2) ||| 0x80000000), b')
        else
          .ok ((v >>> 1 : Nat), b') := by
  rw [Buf.getVarint32, h]

theorem zigzag_decode_odd (k : Nat) (hk1 : 1 ≤ k) (hk2 : k ≤ 2 ^ 31) :
    jsToInt32 (jsToUint32 ((-(jsToInt32 (2 * k - 1)) - 1) / 2) ||| 0x80000000)
      = -(k : Int) := by
  have hlt32 : 2 * k - 1 < 2 ^ 32 := by norm_num; omega
  by_cases hsm : 2 * k - 1 < 2 ^ 31
  · have hz : jsToInt32 (2 * k - 1) = ((2 * k - 1 : Nat) : Int) := by
      rw [jsToInt32, Nat.mod_eq_of_lt hlt32, if_pos hsm]
    rw [hz]
    have harg : -((2 * k - 1 : Nat) : Int) - 1 = 2 * (-(k : Int)) := by omega
    rw [harg, Int.mul_ediv_cancel_left _ (by norm_num)]
    have hju : jsToUint32 (-(k : Int)) = 2 ^ 32 - k := by
      rw [jsToUint32]
      omega
    rw [hju]
    have htb : (2 ^ 32 - k).testBit 31 = true := by
      rw [Nat.testBit_to_div_mod]
      have : (2 ^ 32 - k) / 2 ^ 31 = 1 := by norm_num; omega
      rw [this]
      norm_num
    have h31 : (0x80000000 : Nat) = 2 ^ 31 := by norm_num
    rw [h31, lor_two_pow_of_testBit htb, jsToInt32,
      Nat.mod_eq_of_lt (show 2 ^ 32 - k < 2 ^ 32 by omega),
      if_neg (by norm_num; omega)]
    push_cast
    omega
  · have hz : jsToInt32 (2 * k - 1) = ((2 * k - 1 : Nat) : Int) - 2 ^ 32 := by
      rw [jsToInt32, Nat.mod_eq_of_lt hlt32, if_neg hsm]
    rw [hz]
    have harg : -(((2 * k - 1 : Nat) : Int) - 2 ^ 32) - 1 = 2 * ((2 ^ 31 : Int) - k) := by
      omega
    rw [harg, Int.mul_ediv_cancel_left _ (by norm_num)]
    have hju : jsToUint32 ((2 ^ 31 : Int) - k) = 2 ^ 31 - k := by
      rw [jsToUint32]
      omega
    rw [hju]
    have hlta : 2 ^ 31 - k < 2 ^ 31 := by omega
    have h31 : (0x80000000 : Nat) = 1 <<< 31 := by rw [Nat.shiftLeft_eq]
    rw [h31, lor_shiftLeft_eq_add 1 hlta]
    have hval : 2 ^ 31 - k + 1 <<< 31 = 2 ^ 32 - k := by
      rw [Nat.shiftLeft_eq]
      norm_num
      omega
    rw [hval, jsToInt32, Nat.mod_eq_of_lt (show 2 ^ 32 - k < 2 ^ 32 by omega),
      if_neg (by norm_num; omega)]
    push_cast
    omega

theorem varint_roundtrip (i : Int) (h1 : -(2 ^ 31) ≤ i) (h2 : i < 2 ^ 31) (b : Buf)
    (hb : b.readPos = b.data.length) :
    (b.pushVarint32 i).getVarint32
      = .ok (i, ⟨(b.pushVarint32 i).data, (b.pushVarint32 i).data.length⟩) := by
  rw [Buf.pushVarint32]
  by_cases hneg : i < 0
  · set k : Nat := (-i).toNat with hk
    have hik : i = -(k : Int) := by omega
    have hk1 : 1 ≤ k := by omega
    have hk2 : k ≤ 2 ^ 31 := by omega
    have hju : jsToUint32 (2 * i) = 2 ^ 32 - 2 * k := by
      rw [jsToUint32]
      omega
    have hmask : (if i < 0 then (0xFFFFFFFF : Nat) else 0) = 2 ^ 32 - 1 := by
      rw [if_pos hneg]
      norm_num
    have hzig : jsToUint32 (2 * i) ^^^ (if i < 0 then (0xFFFFFFFF : Nat) else 0)
        = 2 * k - 1 := by
      rw [hju, hmask, xor_two_pow_sub_one _ (by omega)]
      omega
    rw [hzig, getVarint32_of_ok (varuint_roundtrip (2 * k - 1) (by omega) b hb)]
    have hodd : (2 * k - 1) &&& 1 ≠ 0 := by
      rw [Nat.and_one_is_mod]
      omega
    rw [if_pos hodd, zigzag_decode_odd k hk1 hk2, ← hik]
  · have hi0 : 0 ≤ i := by omega
    have hju : jsToUint32 (2 * i) = 2 * i.toNat := by
      rw [jsToUint32]
      omega
    have hzig : jsToUint32 (2 * i) ^^^ (if i < 0 then (0xFFFFFFFF : Nat) else 0)
        = 2 * i.toNat := by
      rw [if_neg hneg, Nat.xor_zero, hju]
    rw [hzig, getVarint32_of_ok (varuint_roundtrip (2 * i.toNat) (by omega) b hb)]
    have heven : ¬((2 * i.toNat) &&& 1 ≠ 0) := by
      rw [Nat.and_one_is_mod]
      omega
    rw [if_neg heven]
    have hsh : (2 * i.toNat) >>> 1 = i.toNat := by
      rw [Nat.shiftRight_eq_div_pow]
      omega
    rw [hsh, Int.toNat_of_nonneg hi0]

theorem getVaruint32Loop_allFlags (n : Nat) :
    ∀ (b : Buf) (v bit : Nat), b.data.length - b.readPos ≤ n →
    (∀ i, i < b.data.length → b.readPos ≤ i → b.data.getD i 0 &&& 0x80 ≠ 0) →
    getVaruint32Loop b v bit = .error .bufferUnderrun := by
  induction n with
  | zero =>
    intro b v bit hn hflag
    rw [getVaruint32Loop, dif_neg (by omega)]
  | succ n ih =>
    intro b v bit hn hflag
    rw [getVaruint32Loop]
    by_cases h : b.readPos < b.data.length
    · rw [dif_pos h]
      have hfl := hflag b.readPos h (le_refl _)
      rw [if_neg hfl]
      exact ih _ _ _ (by simp; omega)
        (fun i h1 h2 => hflag i (by simpa using h1) (by simp at h2; omega))
    · rw [dif_neg h]

theorem getVaruint32Loop_ok_bounds (n : Nat) :
    ∀ (b : Buf) (v bit res : Nat) (b' : Buf), b.data.length - b.readPos ≤ n →
    getVaruint32Loop b v bit = .ok (res, b') →
    b'.data = b.data ∧ b.readPos < b'.readPos ∧ b'.readPos ≤ b.data.length := by
  induction n with
  | zero =>
    intro b v bit res b' hn heq
    rw [getVaruint32Loop, dif_neg (by omega)] at heq
    cases heq
  | succ n ih =>
    intro b v bit res b' hn heq
    rw [getVaruint32Loop] at heq
    by_cases h : b.readPos < b.data.length
    · rw [dif_pos h] at heq
      by_cases hfl : b.data.getD b.readPos 0 &&& 0x80 = 0
      · rw [if_pos hfl] at heq
        cases heq
        exact ⟨rfl, by simp, by simp; omega⟩
      · rw [if_neg hfl] at heq
        obtain ⟨h1, h2, h3⟩ := ih _ _ _ _ _ (by simp; omega) heq
        simp at h1 h2 h3
        exact ⟨h1, by omega, by omega⟩
    · rw [dif_neg h] at heq
      cases heq

/-- C2: for every unsigned 32-bit `v`, decoding the `varuint32` encoding of `v`
yields `v`; for every signed 32-bit `i`, decoding the `varint32` (zigzag)
encoding of `i` yields `i`; the bytes appended by `pushVaruint32` are
`varuintChars`, whose final byte lacks the continuation flag (`< 128`), whose
earlier bytes all carry it (`≥ 128`), and whose final byte is non-zero
whenever more than one byte is emitted (no redundant continuation bytes). -/
theorem c2_varuint32_varint32_roundtrip_minimal :
    (∀ v : Nat, v < 2 ^ 32 → ∀ b : Buf, b.readPos = b.data.length →
      (b.pushVaruint32 v).getVaruint32
        = .ok (v, ⟨(b.pushVaruint32 v).data, (b.pushVaruint32 v).data.length⟩)) ∧
    (∀ i : Int, -(2 ^ 31) ≤ i → i < 2 ^ 31 → ∀ b : Buf, b.readPos = b.data.length →
      (b.pushVarint32 i).getVarint32
        = .ok (i, ⟨(b.pushVarint32 i).data, (b.pushVarint32 i).data.length⟩)) ∧
    (∀ (v : Nat) (b : Buf), b.pushVaruint32 v
        = { b with data := b.data ++ varuintChars (v % 2 ^ 32) }) ∧
    (∀ v : Nat, ∃ pre final, varuintChars v = pre ++ [final] ∧ final < 128 ∧
      (∀ x ∈ pre, 128 ≤ x) ∧ (pre ≠ [] → final ≠ 0)) :=
  ⟨varuint_roundtrip, varint_roundtrip,
   fun v b => by rw [Buf.pushVaruint32, pushVaruint32Go_eq],
   varuintChars_minimal⟩

theorem c2_witness :
    ((Buf.mk [] 0).pushVaruint32 300).getVaruint32
        = .ok (300, ⟨((Buf.mk [] 0).pushVaruint32 300).data,
            ((Buf.mk [] 0).pushVaruint32 300).data.length⟩) ∧
    ((Buf.mk [] 0).pushVarint32 (-5)).getVarint32
        = .ok (-5, ⟨((Buf.mk [] 0).pushVarint32 (-5)).data,
            ((Buf.mk [] 0).pushVarint32 (-5)).data.length⟩) :=
  ⟨c2_varuint32_varint32_roundtrip_minimal.1 300 (by norm_num) ⟨[], 0⟩ rfl,
   c2_varuint32_varint32_roundtrip_minimal.2.1 (-5) (by norm_num) (by norm_num) ⟨[], 0⟩ rfl⟩

/-- C8: when every unread byte carries the continuation flag (including the
case of an already-exhausted buffer), `getVaruint32` terminates with the
buffer-underrun error instead of looping; a successful decode leaves the data
untouched and a cursor within the written length; and `get` on an exhausted
buffer fails with the buffer-underrun error. -/
theorem c8_varuint32_decode_bounded :
    (∀ b : Buf,
      (∀ i, i < b.data.length → b.readPos ≤ i → b.data.getD i 0 &&& 0x80 ≠ 0) →
      b.getVaruint32 = .error .bufferUnderrun) ∧
    (∀ (b : Buf) (v : Nat) (b' : Buf), b.getVaruint32 = .ok (v, b') →
      b'.data = b.data ∧ b.readPos < b'.readPos ∧ b'.readPos ≤ b.data.length) ∧
    (∀ b : Buf, b.data.length ≤ b.readPos → b.get = .error .bufferUnderrun) :=
  ⟨fun b hflag =>
     getVaruint32Loop_allFlags (b.data.length - b.readPos) b 0 0 (le_refl _) hflag,
   fun b v b' heq =>
     getVaruint32Loop_ok_bounds (b.data.length - b.readPos) b 0 0 v b' (le_refl _) heq,
   fun b hle => by rw [Buf.get, if_neg (by omega)]⟩

theorem c8_witness :
    (Buf.mk [0x80, 0xFF] 0).getVaruint32 = .error .bufferUnderrun ∧
    (Buf.mk [1, 2] 2).get = .error .bufferUnderrun :=
  ⟨c8_varuint32_decode_bounded.1 ⟨[0x80, 0xFF], 0⟩ (by decide),
   c8_varuint32_decode_bounded.2.2 ⟨[1, 2], 2⟩ (by decide)⟩

/-! ### The packed identifier ("name") codec -/

/-- Bit `bit` of the 8-byte little-endian field `a`, as accessed by the source
(`a[Math.floor(bit / 8)] >> (bit % 8) & 1`). -/
def bitAt (a : List Nat) (bit : Nat) : Nat :=
  (a.getD (bit / 8) 0 >>> (bit % 8)) &&& 1

/-- The inner loop of `getName`: up to `i` iterations of
`c = (c << 1) | bitAt(bit); --bit`, skipping iterations once `bit` drops below
zero.  `left` stands for `bit + 1`, so `left = 0` encodes `bit = -1`. -/
def readSym (a : List Nat) (i left c : Nat) : Nat × Nat :=
  if i = 0 then (c, left)
  else if left = 0 then readSym a (i - 1) left c
  else readSym a (i - 1) (left - 1) (2 * c + bitAt a (left - 1))
termination_by i
decreasing_by
  all_goals omega

/-- `getName`'s symbol-to-character map: code 0 is `.`, codes 1-5 are `1`-`5`,
codes 6 and up are `a`-`z`. -/
def symChar (c : Nat) : Char :=
  if c ≥ 6 then Char.ofNat (c + 97 - 6)
  else if c ≥ 1 then Char.ofNat (c + 49 - 1)
  else '.'

theorem readSym_snd_le (a : List Nat) :
    ∀ (i left c : Nat), (readSym a i left c).2 ≤ left := by
  intro i
  induction i with
  | zero =>
    intro left c
    rw [readSym]
    simp
  | succ i ih =>
    intro left c
    rw [readSym]
    simp only [Nat.succ_ne_zero, if_false, Nat.add_sub_cancel]
    by_cases h : left = 0
    · simp only [h, if_true, ite_true]
      simpa using ih 0 c
    · simp only [h, if_false, ite_false]
      exact le_trans (ih _ _) (by omega)

/-- The outer loop of `getName`: while `bit ≥ 0` (`left > 0`), read a 5-bit
code and append its character. -/
def getNameChars (a : List Nat) (left : Nat) : List Char :=
  if _h : left = 0 then []
  else symChar (readSym a 5 left 0).1 :: getNameChars a (readSym a 5 left 0).2
termination_by left
decreasing_by
  have h5 : (readSym a 5 left 0).2 ≤ left - 1 := by
    rw [readSym]
    simp only [Nat.succ_ne_zero, if_false]
    rw [if_neg _h]
    simpa using readSym_snd_le a 4 (left - 1) (2 * 0 + bitAt a (left - 1))
  omega

/-- The trailing-dot strip of `getName`
(`while (result.endsWith('.')) result = result.substr(0, result.length - 1)`),
expressed as dropping the maximal run of `.` from the end. -/
def dropTrailingDots (cs : List Char) : List Char :=
  (cs.reverse.dropWhile (· = '.')).reverse

/-- `getName()` on an 8-byte field: decode 13 codes (12 five-bit, one
four-bit), return the 13-dot sentinel verbatim, otherwise strip trailing
dots. -/
def getNameStr (a : List Nat) : String :=
  let cs := getNameChars a 64
  if cs = List.replicate 13 '.' then String.mk cs
  else String.mk (dropTrailingDots cs)

/-- `getName()`. -/
def Buf.getName (b : Buf) : Except Err (String × Buf) :=
  match b.getUint8Array 8 with
  | .error e => .error e
  | .ok (a, b') => .ok (getNameStr a, b')

/-- `charToSymbol` of `pushName`. -/
def charToSymbol (c : Nat) : Nat :=
  if 97 ≤ c ∧ c ≤ 122 then c - 97 + 6
  else if 49 ≤ c ∧ c ≤ 53 then c - 49 + 1
  else 0

/-- `a[Math.floor(bit / 8)] |= v << (bit % 8)`. -/
def setBit (a : List Nat) (pos v : Nat) : List Nat :=
  a.set (pos / 8) (a.getD (pos / 8) 0 ||| v <<< (pos % 8))

/-- The inner loop of `pushName`: for `j` from 4 down to 0, write bit
`(c >> j) & 1` at `bit` and decrement, skipping once `bit` drops below zero.
The first argument counts remaining iterations, so `j = count - 1`. -/
def writeSym (c : Nat) (count left : Nat) (a : List Nat) : List Nat × Nat :=
  if count = 0 then (a, left)
  else if left = 0 then writeSym c (count - 1) left a
  else writeSym c (count - 1) (left - 1) (setBit a (left - 1) ((c >>> (count - 1)) &&& 1))
termination_by count
decreasing_by
  all_goals omega

/-- The outer loop of `pushName`: for each character, compute its code,
double it when fewer than 5 bits remain (`bit < 5`), and write its bits. -/
def pushNameLoop : List Char → Nat → List Nat → List Nat
  | [], _, a => a
  | ch :: rest, left, a =>
    let c0 := charToSymbol ch.toNat
    let c := if left < 6 then 2 * c0 else c0
    pushNameLoop rest (writeSym c 5 left a).2 (writeSym c 5 left a).1

/-- The 8-byte field built by `pushName(s)` (the local array `a`). -/
def nameBytes (s : String) : List Nat :=
  pushNameLoop s.data 64 (List.replicate 8 0)

/-- `pushName(s)`. -/
def Buf.pushName (b : Buf) (s : String) : Buf :=
  b.pushArray (nameBytes s)

theorem bitAt_le_one (a : List Nat) (p : Nat) : bitAt a p ≤ 1 :=
  Nat.and_le_right

theorem bitAt_eq_testBit (a : List Nat) (p : Nat) :
    bitAt a p = ((a.getD (p / 8) 0).testBit (p % 8)).toNat := by
  rw [bitAt, Nat.shiftRight_eq_div_pow, Nat.and_one_is_mod, Nat.testBit_to_div_mod]
  generalize a.getD (p / 8) 0 / 2 ^ (p % 8) = t
  rcases Nat.mod_two_eq_zero_or_one t with h | h <;> simp [h]

theorem getD_set_eq (l : List Nat) (i : Nat) (x : Nat) (h : i < l.length) :
    (l.set i x).getD i 0 = x := by
  simp [List.getD_eq_getElem?_getD, List.getElem?_set, h]

theorem getD_set_ne (l : List Nat) {i j : Nat} (x : Nat) (h : i ≠ j) :
    (l.set i x).getD j 0 = l.getD j 0 := by
  simp [List.getD_eq_getElem?_getD, List.getElem?_set, h]

theorem length_setBit (a : List Nat) (p v : Nat) : (setBit a p v).length = a.length := by
  simp [setBit]

theorem shiftLeft_testBit_ne {v k m : Nat} (hv : v ≤ 1) (hne : k ≠ m) :
    (v <<< k).testBit m = false := by
  rw [Nat.testBit_shiftLeft]
  by_cases hge : m ≥ k
  · have hd : m - k ≥ 1 := by omega
    have hv' : v.testBit (m - k) = false := by
      interval_cases v
      · exact Nat.zero_testBit _
      · exact Nat.testBit_lt_two_pow
          (lt_of_lt_of_le (by norm_num) (Nat.pow_le_pow_right (by norm_num) hd))
    simp [hv']
  · simp [hge]

theorem shiftLeft_testBit_self {v k : Nat} (hv : v ≤ 1) :
    ((v <<< k).testBit k).toNat = v := by
  rw [Nat.testBit_shiftLeft]
  have hd : decide (k ≥ k) = true := by simp
  rw [hd, Bool.true_and, Nat.sub_self]
  interval_cases v
  · simp [Nat.zero_testBit]
  · decide

theorem bitAt_setBit_ne (a : List Nat) {p q : Nat} (v : Nat) (hv : v ≤ 1) (hne : p ≠ q) :
    bitAt (setBit a p v) q = bitAt a q := by
  rw [setBit, bitAt_eq_testBit, bitAt_eq_testBit]
  by_cases hb : p / 8 = q / 8
  · have hk : p % 8 ≠ q % 8 := by omega
    by_cases hlen : q / 8 < a.length
    · rw [← hb] at hlen ⊢
      rw [getD_set_eq _ _ _ hlen, Nat.testBit_lor, shiftLeft_testBit_ne hv hk,
        Bool.or_false, hb]
    · rw [← hb] at hlen ⊢
      have h2 : a[p / 8]? = none := List.getElem?_eq_none (by omega)
      have hset : ∀ w, (a.set (p / 8) w).getD (p / 8) 0 = a.getD (p / 8) 0 := by
        intro w
        have h1 : (a.set (p / 8) w)[p / 8]? = none := by
          rw [List.getElem?_eq_none]
          simp only [List.length_set]
          omega
        rw [List.getD_eq_getElem?_getD, List.getD_eq_getElem?_getD, h1, h2]
      rw [hset, hb]
  · rw [getD_set_ne _ _ hb]

theorem bitAt_setBit_self (a : List Nat) {p : Nat} (v : Nat) (hv : v ≤ 1)
    (hlen : p / 8 < a.length) (h0 : bitAt a p = 0) :
    bitAt (setBit a p v) p = v := by
  rw [bitAt_eq_testBit] at h0 ⊢
  rw [setBit, getD_set_eq _ _ _ hlen, Nat.testBit_lor]
  have hold : (a.getD (p / 8) 0).testBit (p % 8) = false := by
    rcases h : (a.getD (p / 8) 0).testBit (p % 8) with _ | _
    · rfl
    · rw [h] at h0
      simp at h0
  rw [hold, Bool.false_or]
  exact shiftLeft_testBit_self hv

theorem bytes_setBit (a : List Nat) (p v : Nat) (hv : v ≤ 1)
    (hb : ∀ x ∈ a, x < 256) : ∀ x ∈ setBit a p v, x < 256 := by
  intro x hx
  rw [setBit] at hx
  rcases List.mem_or_eq_of_mem_set hx with hmem | rfl
  · exact hb x hmem
  · have hgd : a.getD (p / 8) 0 < 256 := by
      by_cases hlen : p / 8 < a.length
      · rw [List.getD_eq_getElem?_getD, List.getElem?_eq_getElem hlen]
        exact hb _ (List.getElem_mem hlen)
      · rw [List.getD_eq_getElem?_getD, List.getElem?_eq_none (by omega)]
        norm_num
    have hsh : v <<< (p % 8) < 256 := by
      calc v <<< (p % 8) = v * 2 ^ (p % 8) := Nat.shiftLeft_eq v (p % 8)
        _ ≤ 1 * 2 ^ 7 := by
            apply Nat.mul_le_mul hv
            exact Nat.pow_le_pow_right (by norm_num) (by omega)
        _ < 256 := by norm_num
    exact Nat.or_lt_two_pow (n := 8) hgd hsh

theorem sym_roundtrip : ∀ c : Nat, c < 32 → charToSymbol (symChar c).toNat = c := by
  decide

set_option maxRecDepth 4000 in
theorem byte_recompose : ∀ x : Nat, x < 256 →
    x = 128 * ((x >>> 7) &&& 1) + 64 * ((x >>> 6) &&& 1) + 32 * ((x >>> 5) &&& 1)
      + 16 * ((x >>> 4) &&& 1) + 8 * ((x >>> 3) &&& 1) + 4 * ((x >>> 2) &&& 1)
      + 2 * ((x >>> 1) &&& 1) + ((x >>> 0) &&& 1) := by
  decide

theorem bits5_extract4 : ∀ b4 : Nat, b4 < 2 → ∀ b3 : Nat, b3 < 2 → ∀ b2 : Nat, b2 < 2 →
    ∀ b1 : Nat, b1 < 2 → ∀ b0 : Nat, b0 < 2 →
    ((2 * (2 * (2 * (2 * (2 * 0 + b4) + b3) + b2) + b1) + b0) >>> 4) &&& 1 = b4 := by
  decide

theorem bits5_extract3 : ∀ b4 : Nat, b4 < 2 → ∀ b3 : Nat, b3 < 2 → ∀ b2 : Nat, b2 < 2 →
    ∀ b1 : Nat, b1 < 2 → ∀ b0 : Nat, b0 < 2 →
    ((2 * (2 * (2 * (2 * (2 * 0 + b4) + b3) + b2) + b1) + b0) >>> 3) &&& 1 = b3 := by
  decide

theorem bits5_extract2 : ∀ b4 : Nat, b4 < 2 → ∀ b3 : Nat, b3 < 2 → ∀ b2 : Nat, b2 < 2 →
    ∀ b1 : Nat, b1 < 2 → ∀ b0 : Nat, b0 < 2 →
    ((2 * (2 * (2 * (2 * (2 * 0 + b4) + b3) + b2) + b1) + b0) >>> 2) &&& 1 = b2 := by
  decide

theorem bits5_extract1 : ∀ b4 : Nat, b4 < 2 → ∀ b3 : Nat, b3 < 2 → ∀ b2 : Nat, b2 < 2 →
    ∀ b1 : Nat, b1 < 2 → ∀ b0 : Nat, b0 < 2 →
    ((2 * (2 * (2 * (2 * (2 * 0 + b4) + b3) + b2) + b1) + b0) >>> 1) &&& 1 = b1 := by
  decide

theorem bits5_extract0 : ∀ b4 : Nat, b4 < 2 → ∀ b3 : Nat, b3 < 2 → ∀ b2 : Nat, b2 < 2 →
    ∀ b1 : Nat, b1 < 2 → ∀ b0 : Nat, b0 < 2 →
    ((2 * (2 * (2 * (2 * (2 * 0 + b4) + b3) + b2) + b1) + b0) >>> 0) &&& 1 = b0 := by
  decide

theorem bits4_extract4 : ∀ b3 : Nat, b3 < 2 → ∀ b2 : Nat, b2 < 2 →
    ∀ b1 : Nat, b1 < 2 → ∀ b0 : Nat, b0 < 2 →
    ((2 * (2 * (2 * (2 * (2 * 0 + b3) + b2) + b1) + b0)) >>> 4) &&& 1 = b3 := by
  decide

theorem bits4_extract3 : ∀ b3 : Nat, b3 < 2 → ∀ b2 : Nat, b2 < 2 →
    ∀ b1 : Nat, b1 < 2 → ∀ b0 : Nat, b0 < 2 →
    ((2 * (2 * (2 * (2 * (2 * 0 + b3) + b2) + b1) + b0)) >>> 3) &&& 1 = b2 := by
  decide

theorem bits4_extract2 : ∀ b3 : Nat, b3 < 2 → ∀ b2 : Nat, b2 < 2 →
    ∀ b1 : Nat, b1 < 2 → ∀ b0 : Nat, b0 < 2 →
    ((2 * (2 * (2 * (2 * (2 * 0 + b3) + b2) + b1) + b0)) >>> 2) &&& 1 = b1 := by
  decide

theorem bits4_extract1 : ∀ b3 : Nat, b3 < 2 → ∀ b2 : Nat, b2 < 2 →
    ∀ b1 : Nat, b1 < 2 → ∀ b0 : Nat, b0 < 2 →
    ((2 * (2 * (2 * (2 * (2 * 0 + b3) + b2) + b1) + b0)) >>> 1) &&& 1 = b0 := by
  decide

theorem bits5_lt : ∀ b4 : Nat, b4 ≤ 1 → ∀ b3 : Nat, b3 ≤ 1 → ∀ b2 : Nat, b2 ≤ 1 →
    ∀ b1 : Nat, b1 ≤ 1 → ∀ b0 : Nat, b0 ≤ 1 →
    2 * (2 * (2 * (2 * (2 * 0 + b4) + b3) + b2) + b1) + b0 < 32 := by
  intro b4 h4 b3 h3 b2 h2 b1 h1 b0 h0
  omega

theorem readSym_five (a : List Nat) (l : Nat) :
    readSym a 5 (l + 5) 0
      = (2 * (2 * (2 * (2 * (2 * 0 + bitAt a (l + 4)) + bitAt a (l + 3))
          + bitAt a (l + 2)) + bitAt a (l + 1)) + bitAt a l, l) := by
  rw [readSym]
  norm_num
  rw [readSym]
  norm_num
  rw [readSym]
  norm_num
  rw [readSym]
  norm_num
  rw [readSym]
  norm_num
  rw [readSym]
  norm_num

theorem readSym_four (a : List Nat) :
    readSym a 5 4 0
      = (2 * (2 * (2 * (2 * 0 + bitAt a 3) + bitAt a 2) + bitAt a 1) + bitAt a 0, 0) := by
  rw [readSym]
  norm_num
  rw [readSym]
  norm_num
  rw [readSym]
  norm_num
  rw [readSym]
  norm_num
  rw [readSym]
  norm_num
  rw [readSym]
  norm_num

theorem writeSym_length : ∀ (count : Nat) (c left : Nat) (b : List Nat),
    (writeSym c count left b).1.length = b.length := by
  intro count
  induction count with
  | zero =>
    intro c left b
    rw [writeSym]
    simp
  | succ count ih =>
    intro c left b
    rw [writeSym]
    simp only [Nat.succ_ne_zero, if_false, Nat.add_sub_cancel]
    by_cases h : left = 0
    · rw [if_pos h]
      exact ih c left b
    · rw [if_neg h]
      rw [ih]
      exact length_setBit ..

theorem writeSym_bytes : ∀ (count : Nat) (c left : Nat) (b : List Nat),
    (∀ x ∈ b, x < 256) → ∀ x ∈ (writeSym c count left b).1, x < 256 := by
  intro count
  induction count with
  | zero =>
    intro c left b hb
    rw [writeSym]
    simpa using hb
  | succ count ih =>
    intro c left b hb
    rw [writeSym]
    simp only [Nat.succ_ne_zero, if_false, Nat.add_sub_cancel]
    by_cases h : left = 0
    · rw [if_pos h]
      exact ih c left b hb
    · rw [if_neg h]
      exact ih c (left - 1) _ (bytes_setBit _ _ _ Nat.and_le_right hb)

theorem writeSym_untouched : ∀ (count : Nat) (c left : Nat) (b : List Nat) (q : Nat),
    (q < left - count ∨ left ≤ q) →
    bitAt (writeSym c count left b).1 q = bitAt b q := by
  intro count
  induction count with
  | zero =>
    intro c left b q hq
    rw [writeSym]
    simp
  | succ count ih =>
    intro c left b q hq
    rw [writeSym]
    simp only [Nat.succ_ne_zero, if_false, Nat.add_sub_cancel]
    by_cases h : left = 0
    · rw [if_pos h]
      exact ih c left b q (by omega)
    · rw [if_neg h]
      rw [ih c (left - 1) _ q (by omega)]
      exact bitAt_setBit_ne _ _ Nat.and_le_right (by omega)

theorem writeSym_written : ∀ (count : Nat) (c left : Nat) (b : List Nat) (q : Nat),
    b.length = 8 → left ≤ 64 → left - count ≤ q → q < left → bitAt b q = 0 →
    bitAt (writeSym c count left b).1 q = (c >>> (count - (left - q))) &&& 1 := by
  intro count
  induction count with
  | zero =>
    intro c left b q hb8 hl hq1 hq2 hq0
    omega
  | succ count ih =>
    intro c left b q hb8 hl hq1 hq2 hq0
    rw [writeSym]
    simp only [Nat.succ_ne_zero, if_false, Nat.add_sub_cancel]
    rw [if_neg (by omega)]
    by_cases hq : q = left - 1
    · subst hq
      rw [writeSym_untouched count c (left - 1) _ _ (by omega)]
      have he : count + 1 - (left - (left - 1)) = count := by omega
      rw [he]
      exact bitAt_setBit_self _ _ Nat.and_le_right (by omega) hq0
    · have hbit : bitAt (setBit b (left - 1) ((c >>> count) &&& 1)) q = 0 := by
        rw [bitAt_setBit_ne _ _ Nat.and_le_right (by omega)]
        exact hq0
      rw [ih c (left - 1) _ q (by rw [length_setBit]; exact hb8) (by omega) (by omega)
        (by omega) hbit]
      have he : count - (left - 1 - q) = count + 1 - (left - q) := by omega
      rw [he]

theorem set_getD_self : ∀ (l : List Nat) (p : Nat), l.set p (l.getD p 0) = l := by
  intro l
  induction l with
  | nil => intro p; rfl
  | cons x xs ih =>
    intro p
    cases p with
    | zero => simp [List.set]
    | succ p =>
      simp only [List.set, List.getD_cons_succ]
      rw [ih]

theorem setBit_zero (a : List Nat) (p : Nat) : setBit a p 0 = a := by
  rw [setBit, Nat.zero_shiftLeft, Nat.or_zero, set_getD_self]

theorem writeSym_zero : ∀ (count left : Nat) (b : List Nat),
    writeSym 0 count left b = (b, left - count) := by
  intro count
  induction count with
  | zero =>
    intro left b
    rw [writeSym]
    simp
  | succ count ih =>
    intro left b
    rw [writeSym]
    simp only [Nat.succ_ne_zero, if_false, Nat.add_sub_cancel]
    by_cases h : left = 0
    · rw [if_pos h, ih, h]
      norm_num
    · rw [if_neg h, Nat.zero_shiftRight, Nat.zero_and, setBit_zero, ih]
      congr 1
      omega

theorem charToSymbol_dot : charToSymbol ('.'.toNat) = 0 := by decide

theorem pushNameLoop_dots : ∀ (k left : Nat) (b : List Nat),
    pushNameLoop (List.replicate k '.') left b = b := by
  intro k
  induction k with
  | zero => intro left b; rfl
  | succ k ih =>
    intro left b
    rw [List.replicate_succ, pushNameLoop]
    simp only [charToSymbol_dot, Nat.mul_zero, ite_self, writeSym_zero]
    exact ih _ _

theorem pushNameLoop_append_dots : ∀ (cs : List Char) (k left : Nat) (b : List Nat),
    pushNameLoop (cs ++ List.replicate k '.') left b = pushNameLoop cs left b := by
  intro cs
  induction cs with
  | nil =>
    intro k left b
    rw [List.nil_append, pushNameLoop]
    exact pushNameLoop_dots _ _ _
  | cons ch rest ih =>
    intro k left b
    rw [List.cons_append, pushNameLoop, pushNameLoop]
    exact ih _ _ _

theorem dropTrailingDots_spec (cs : List Char) :
    ∃ k, cs = dropTrailingDots cs ++ List.replicate k '.' := by
  refine ⟨(cs.reverse.takeWhile (· = '.')).length, ?_⟩
  conv_lhs => rw [← List.reverse_reverse cs,
    ← List.takeWhile_append_dropWhile (p := (· = '.')) (l := cs.reverse)]
  rw [List.reverse_append, dropTrailingDots]
  congr 1
  rw [List.eq_replicate_iff]
  constructor
  · simp
  · intro c hc
    rw [List.mem_reverse] at hc
    have := List.mem_takeWhile_imp hc
    simpa using this

theorem dropTrailingDots_length_le (cs : List Char) :
    (dropTrailingDots cs).length ≤ cs.length := by
  rw [dropTrailingDots]
  calc (cs.reverse.dropWhile (· = '.')).reverse.length
      = (cs.reverse.dropWhile (· = '.')).length := List.length_reverse ..
    _ ≤ cs.reverse.length := by
        have := List.dropWhile_sublist (p := (· = '.')) (l := cs.reverse)
        exact this.length_le
    _ = cs.length := List.length_reverse ..

theorem writeSym_snd : ∀ (count : Nat) (c left : Nat) (b : List Nat),
    (writeSym c count left b).2 = left - count := by
  intro count
  induction count with
  | zero =>
    intro c left b
    rw [writeSym]
    simp
  | succ count ih =>
    intro c left b
    rw [writeSym]
    simp only [Nat.succ_ne_zero, if_false, Nat.add_sub_cancel]
    by_cases h : left = 0
    · rw [if_pos h, ih, h]
      norm_num
    · rw [if_neg h, ih]
      omega

theorem list8_eq_of_bitAt (a b : List Nat) (ha : a.length = 8) (hb : b.length = 8)
    (ha2 : ∀ x ∈ a, x < 256) (hb2 : ∀ x ∈ b, x < 256)
    (hbit : ∀ p, p < 64 → bitAt a p = bitAt b p) : a = b := by
  apply List.ext_getElem (by omega)
  intro i h1 h2
  have hi : i < 8 := by omega
  have hba : a[i] < 256 := ha2 _ (List.getElem_mem h1)
  have hbb : b[i] < 256 := hb2 _ (List.getElem_mem h2)
  have hbit' : ∀ k, k < 8 → (a[i] >>> k) &&& 1 = (b[i] >>> k) &&& 1 := by
    intro k hk
    have h3 := hbit (8 * i + k) (by omega)
    rw [bitAt, bitAt] at h3
    have e1 : (8 * i + k) / 8 = i := by omega
    have e2 : (8 * i + k) % 8 = k := by omega
    rw [e1, e2] at h3
    rw [List.getD_eq_getElem?_getD, List.getD_eq_getElem?_getD,
      List.getElem?_eq_getElem h1, List.getElem?_eq_getElem h2] at h3
    simpa using h3
  calc a[i] = 128 * ((a[i] >>> 7) &&& 1) + 64 * ((a[i] >>> 6) &&& 1)
        + 32 * ((a[i] >>> 5) &&& 1) + 16 * ((a[i] >>> 4) &&& 1) + 8 * ((a[i] >>> 3) &&& 1)
        + 4 * ((a[i] >>> 2) &&& 1) + 2 * ((a[i] >>> 1) &&& 1) + ((a[i] >>> 0) &&& 1) :=
        byte_recompose _ hba
    _ = 128 * ((b[i] >>> 7) &&& 1) + 64 * ((b[i] >>> 6) &&& 1)
        + 32 * ((b[i] >>> 5) &&& 1) + 16 * ((b[i] >>> 4) &&& 1) + 8 * ((b[i] >>> 3) &&& 1)
        + 4 * ((b[i] >>> 2) &&& 1) + 2 * ((b[i] >>> 1) &&& 1) + ((b[i] >>> 0) &&& 1) := by
        rw [hbit' 7 (by norm_num), hbit' 6 (by norm_num), hbit' 5 (by norm_num),
          hbit' 4 (by norm_num), hbit' 3 (by norm_num), hbit' 2 (by norm_num),
          hbit' 1 (by norm_num), hbit' 0 (by norm_num)]
    _ = b[i] := (byte_recompose _ hbb).symm

theorem getNameChars_zero (a : List Nat) : getNameChars a 0 = [] := by
  rw [getNameChars]
  simp

theorem readSym_four_fst (a : List Nat) :
    (readSym a 5 4 0).1
      = 2 * (2 * (2 * (2 * 0 + bitAt a 3) + bitAt a 2) + bitAt a 1) + bitAt a 0 := by
  rw [readSym_four]

theorem readSym_four_snd (a : List Nat) : (readSym a 5 4 0).2 = 0 := by
  rw [readSym_four]

theorem readSym_five_fst (a : List Nat) (l : Nat) :
    (readSym a 5 (l + 5) 0).1
      = 2 * (2 * (2 * (2 * (2 * 0 + bitAt a (l + 4)) + bitAt a (l + 3))
          + bitAt a (l + 2)) + bitAt a (l + 1)) + bitAt a l := by
  rw [readSym_five]

theorem readSym_five_snd (a : List Nat) (l : Nat) : (readSym a 5 (l + 5) 0).2 = l := by
  rw [readSym_five]

theorem getNameChars_four (a : List Nat) :
    getNameChars a 4
      = [symChar (2 * (2 * (2 * (2 * 0 + bitAt a 3) + bitAt a 2) + bitAt a 1)
          + bitAt a 0)] := by
  rw [getNameChars, dif_neg (by norm_num : ¬(4 = 0)), readSym_four_fst, readSym_four_snd,
    getNameChars_zero]

theorem getNameChars_step (a : List Nat) (l : Nat) :
    getNameChars a (l + 5)
      = symChar (2 * (2 * (2 * (2 * (2 * 0 + bitAt a (l + 4)) + bitAt a (l + 3))
          + bitAt a (l + 2)) + bitAt a (l + 1)) + bitAt a l) :: getNameChars a l := by
  rw [getNameChars, dif_neg (by omega : ¬(l + 5 = 0)), readSym_five_fst, readSym_five_snd]

theorem getNameChars_length : ∀ (n : Nat) (a : List Nat),
    (getNameChars a (5 * n + 4)).length = n + 1 := by
  intro n
  induction n with
  | zero =>
    intro a
    rw [show 5 * 0 + 4 = 4 by norm_num, getNameChars_four]
    rfl
  | succ n ih =>
    intro a
    rw [show 5 * (n + 1) + 4 = (5 * n + 4) + 5 by ring, getNameChars_step]
    simp [ih]

theorem pushNameLoop_nil (left : Nat) (b : List Nat) : pushNameLoop [] left b = b := rfl

theorem pushNameLoop_cons (ch : Char) (rest : List Char) (left : Nat) (b : List Nat) :
    pushNameLoop (ch :: rest) left b
      = pushNameLoop rest
          (writeSym (if left < 6 then 2 * charToSymbol ch.toNat else charToSymbol ch.toNat)
            5 left b).2
          (writeSym (if left < 6 then 2 * charToSymbol ch.toNat else charToSymbol ch.toNat)
            5 left b).1 := rfl

theorem pushNameLoop_getNameChars :
    ∀ n : Nat, n ≤ 12 → ∀ (a b : List Nat),
    a.length = 8 → b.length = 8 → (∀ x ∈ a, x < 256) → (∀ x ∈ b, x < 256) →
    (∀ p, 5 * n + 4 ≤ p → p < 64 → bitAt b p = bitAt a p) →
    (∀ p, p < 5 * n + 4 → bitAt b p = 0) →
    pushNameLoop (getNameChars a (5 * n + 4)) (5 * n + 4) b = a := by
  intro n
  induction n with
  | zero =>
    intro _ a b ha8 hb8 ha2 hb2 hhigh hlow
    have h04 : 5 * 0 + 4 = 4 := by norm_num
    rw [h04] at hhigh hlow ⊢
    rw [getNameChars_four, pushNameLoop_cons]
    have ha3 := bitAt_le_one a 3
    have ha2' := bitAt_le_one a 2
    have ha1 := bitAt_le_one a 1
    have ha0 := bitAt_le_one a 0
    set c : Nat := 2 * (2 * (2 * (2 * 0 + bitAt a 3) + bitAt a 2) + bitAt a 1) + bitAt a 0
      with hcdef
    have hc32 : c < 32 := by rw [hcdef]; omega
    rw [sym_roundtrip c hc32, if_pos (by norm_num : (4 : Nat) < 6), pushNameLoop_nil]
    apply list8_eq_of_bitAt _ _ (by rw [writeSym_length]; exact hb8) ha8
      (writeSym_bytes _ _ _ _ hb2) ha2
    intro p hp
    by_cases hp4 : p < 4
    · rw [writeSym_written 5 (2 * c) 4 b p hb8 (by norm_num) (by omega) (by omega)
        (hlow p hp4)]
      interval_cases p
      · have he : 5 - (4 - 0) = 1 := by norm_num
        rw [he, hcdef]
        exact bits4_extract1 _ (by omega) _ (by omega) _ (by omega) _ (by omega)
      · have he : 5 - (4 - 1) = 2 := by norm_num
        rw [he, hcdef]
        exact bits4_extract2 _ (by omega) _ (by omega) _ (by omega) _ (by omega)
      · have he : 5 - (4 - 2) = 3 := by norm_num
        rw [he, hcdef]
        exact bits4_extract3 _ (by omega) _ (by omega) _ (by omega) _ (by omega)
      · have he : 5 - (4 - 3) = 4 := by norm_num
        rw [he, hcdef]
        exact bits4_extract4 _ (by omega) _ (by omega) _ (by omega) _ (by omega)
    · rw [writeSym_untouched 5 (2 * c) 4 b p (Or.inr (by omega))]
      exact hhigh p (by omega) hp
  | succ n ih =>
    intro hn a b ha8 hb8 ha2 hb2 hhigh hlow
    have hL : 5 * (n + 1) + 4 = (5 * n + 4) + 5 := by ring
    rw [hL] at hhigh hlow ⊢
    set l := 5 * n + 4 with hldef
    rw [getNameChars_step, pushNameLoop_cons]
    have ha4 := bitAt_le_one a (l + 4)
    have ha3 := bitAt_le_one a (l + 3)
    have ha2' := bitAt_le_one a (l + 2)
    have ha1 := bitAt_le_one a (l + 1)
    have ha0 := bitAt_le_one a l
    set c : Nat := 2 * (2 * (2 * (2 * (2 * 0 + bitAt a (l + 4)) + bitAt a (l + 3))
      + bitAt a (l + 2)) + bitAt a (l + 1)) + bitAt a l with hcdef
    have hc32 : c < 32 := by rw [hcdef]; omega
    rw [sym_roundtrip c hc32, if_neg (by omega : ¬(l + 5 < 6)), writeSym_snd]
    have hls : l + 5 - 5 = l := by omega
    rw [hls]
    apply ih (by omega) a _ ha8 (by rw [writeSym_length]; exact hb8) ha2
      (writeSym_bytes _ _ _ _ hb2)
    · intro p hp1 hp2
      by_cases hcase : p < l + 5
      · rw [writeSym_written 5 c (l + 5) b p hb8 (by omega) (by omega) (by omega)
          (hlow p (by omega))]
        have hpcase : p = l ∨ p = l + 1 ∨ p = l + 2 ∨ p = l + 3 ∨ p = l + 4 := by omega
        rcases hpcase with rfl | rfl | rfl | rfl | rfl
        · have he : 5 - (l + 5 - l) = 0 := by omega
          rw [he, hcdef]
          exact bits5_extract0 _ (by omega) _ (by omega) _ (by omega) _ (by omega)
            _ (by omega)
        · have he : 5 - (l + 5 - (l + 1)) = 1 := by omega
          rw [he, hcdef]
          exact bits5_extract1 _ (by omega) _ (by omega) _ (by omega) _ (by omega)
            _ (by omega)
        · have he : 5 - (l + 5 - (l + 2)) = 2 := by omega
          rw [he, hcdef]
          exact bits5_extract2 _ (by omega) _ (by omega) _ (by omega) _ (by omega)
            _ (by omega)
        · have he : 5 - (l + 5 - (l + 3)) = 3 := by omega
          rw [he, hcdef]
          exact bits5_extract3 _ (by omega) _ (by omega) _ (by omega) _ (by omega)
            _ (by omega)
        · have he : 5 - (l + 5 - (l + 4)) = 4 := by omega
          rw [he, hcdef]
          exact bits5_extract4 _ (by omega) _ (by omega) _ (by omega) _ (by omega)
            _ (by omega)
      · rw [writeSym_untouched 5 c (l + 5) b p (Or.inr (by omega))]
        exact hhigh p (by omega) hp2
    · intro p hp
      rw [writeSym_untouched 5 c (l + 5) b p (Or.inl (by omega))]
      exact hlow p (by omega)

theorem bitAt_replicate_zero (p : Nat) : bitAt (List.replicate 8 0) p = 0 := by
  rw [bitAt]
  have hz : (List.replicate 8 (0 : Nat)).getD (p / 8) 0 = 0 := by
    rcases Nat.lt_or_ge (p / 8) 8 with h | h
    · rw [List.getD_eq_getElem?_getD, List.getElem?_replicate, if_pos h]
      rfl
    · rw [List.getD_eq_getElem?_getD, List.getElem?_eq_none (by simpa using h)]
      rfl
  rw [hz, Nat.zero_shiftRight, Nat.zero_and]

theorem nameBytes_getNameStr (a : List Nat) (ha8 : a.length = 8)
    (ha2 : ∀ x ∈ a, x < 256) :
    nameBytes (getNameStr a) = a := by
  have hmain : pushNameLoop (getNameChars a 64) 64 (List.replicate 8 0) = a := by
    have h := pushNameLoop_getNameChars 12 (le_refl 12) a (List.replicate 8 0) ha8
      (by simp) ha2
      (by
        intro x hx
        rw [List.eq_of_mem_replicate hx]
        norm_num)
      (by
        intro p h1 h2
        omega)
      (fun p _ => bitAt_replicate_zero p)
    simpa using h
  rw [getNameStr]
  by_cases hs : getNameChars a 64 = List.replicate 13 '.'
  · simp only [hs, if_true, ite_true]
    show pushNameLoop (List.replicate 13 '.') 64 (List.replicate 8 0) = a
    rw [← hs]
    exact hmain
  · simp only [hs, if_false, ite_false]
    show pushNameLoop (dropTrailingDots (getNameChars a 64)) 64 (List.replicate 8 0) = a
    obtain ⟨k, hk⟩ := dropTrailingDots_spec (getNameChars a 64)
    rw [← pushNameLoop_append_dots (dropTrailingDots (getNameChars a 64)) k, ← hk]
    exact hmain

theorem getNameStr_length_le (a : List Nat) : (getNameStr a).length ≤ 13 := by
  rw [getNameStr]
  have h13 : (getNameChars a 64).length = 13 := by
    have := getNameChars_length 12 a
    simpa using this
  by_cases hs : getNameChars a 64 = List.replicate 13 '.'
  · simp only [hs, if_true, ite_true]
    show (List.replicate 13 '.').length ≤ 13
    simp
  · simp only [hs, if_false, ite_false]
    show (dropTrailingDots (getNameChars a 64)).length ≤ 13
    calc (dropTrailingDots (getNameChars a 64)).length
        ≤ (getNameChars a 64).length := dropTrailingDots_length_le _
      _ = 13 := h13

/-- C4: for every 8-byte input (bytes below 256), re-encoding the decoded
packed identifier reproduces the 8 bytes exactly — including the 13-dot
sentinel, which decodes from the zero field and re-encodes to it; the decoded
string never exceeds 13 characters; and at buffer level, a successfully
decoded name re-encodes to exactly the 8 bytes that were read. -/
theorem c4_packed_name_roundtrip :
    (∀ a : List Nat, a.length = 8 → (∀ x ∈ a, x < 256) →
      nameBytes (getNameStr a) = a ∧ (getNameStr a).length ≤ 13) ∧
    (∀ (b : Buf) (s : String) (b₂ : Buf), b.getName = .ok (s, b₂) →
      (∀ x ∈ (b.data.drop b.readPos).take 8, x < 256) →
      ∀ bout : Buf,
        bout.pushName s = { bout with data := bout.data ++ (b.data.drop b.readPos).take 8 }) := by
  constructor
  · intro a ha8 ha2
    exact ⟨nameBytes_getNameStr a ha8 ha2, getNameStr_length_le a⟩
  · intro b s b₂ hok hbytes bout
    rw [Buf.getName] at hok
    rcases hga : b.getUint8Array 8 with e | ⟨a, b₃⟩
    · rw [hga] at hok
      cases hok
    · rw [hga] at hok
      rw [Buf.getUint8Array] at hga
      by_cases hlen : b.readPos + 8 ≤ b.data.length
      · rw [if_pos hlen] at hga
        cases hga
        cases hok
        have ha8 : ((b.data.drop b.readPos).take 8).length = 8 := by
          rw [List.length_take, List.length_drop]
          omega
        have hnb := nameBytes_getNameStr _ ha8 hbytes
        rw [Buf.pushName, Buf.pushArray, hnb]
        have hmap : ((b.data.drop b.readPos).take 8).map (· % 256)
            = (b.data.drop b.readPos).take 8 := by
          calc ((b.data.drop b.readPos).take 8).map (· % 256)
              = ((b.data.drop b.readPos).take 8).map id := by
                apply List.map_congr_left
                intro x hx
                exact Nat.mod_eq_of_lt (hbytes x hx)
            _ = (b.data.drop b.readPos).take 8 := List.map_id _
        rw [hmap]
      · rw [if_neg hlen] at hga
        cases hga

/-! ### Symbol and asset codecs -/

/-- Model of `TextEncoder.encode` restricted to ASCII strings (the symbol and
asset codecs only handle ticker characters). -/
def utf8Encode (s : String) : List Nat := s.data.map Char.toNat

/-- Model of `TextDecoder.decode` restricted to ASCII byte sequences. -/
def utf8Decode (l : List Nat) : String := String.mk (l.map Char.ofNat)

/-- Model of JavaScript's `String.prototype.trim` on the underlying character
list (whitespace at both ends). -/
def isSpaceChar (c : Char) : Bool := c = ' ' ∨ c = '\t' ∨ c = '\n' ∨ c = '\r'

def trimChars (cs : List Char) : List Char :=
  ((cs.dropWhile isSpaceChar).reverse.dropWhile isSpaceChar).reverse

/-- `pushSymbol({name, precision})`: one precision byte, then the encoded
name zero-padded, truncated to 8 bytes in total (the `while (a.length < 8)
a.push(0)` / `slice(0, 8)` of the source). -/
def Buf.pushSymbol (b : Buf) (name : String) (precision : Nat) : Buf :=
  let l := [precision &&& 0xff] ++ utf8Encode name
  b.pushArray ((l ++ List.replicate (8 - l.length) 0).take 8)

/-- `getSymbol()`: one precision byte, then 7 bytes of which the name runs up
to the first zero byte. -/
def Buf.getSymbol (b : Buf) : Except Err ((String × Nat) × Buf) :=
  match b.get with
  | .error e => .error e
  | .ok (precision, b) =>
    match b.getUint8Array 7 with
    | .error e => .error e
    | .ok (a, b) => .ok ((utf8Decode (a.takeWhile (· ≠ 0)), precision), b)

/-- Modelled from the spec: decimal rendering used by the external
`eosjs2-numeric` codec (missing from the sources). -/
def natDecimal (n : Nat) : String := Nat.repr n

/-- Parse sign and digits of a decimal string, as the external codec does. -/
def parseSignedDec (s : String) : Int :=
  match s.data with
  | '-' :: rest => -(rest.foldl (fun acc c => 10 * acc + (c.toNat - 48)) 0 : Nat)
  | cs => (cs.foldl (fun acc c => 10 * acc + (c.toNat - 48)) 0 : Nat)

/-- `size` little-endian bytes of `n`. -/
def leBytes : Nat → Nat → List Nat
  | 0, _ => []
  | k + 1, n => n % 256 :: leBytes k (n / 256)

/-- Modelled from the spec: `eosjs2-numeric.signedDecimalToBinary(size, s)` —
the external arbitrary-precision decimal-to-binary codec (its source is not
part of this repository).  Per the spec it converts a signed decimal string
into `size` little-endian two's-complement bytes. -/
def signedDecimalToBinary (size : Nat) (s : String) : List Nat :=
  leBytes size ((parseSignedDec s % ((2 : Int) ^ (8 * size))).toNat)

/-- Little-endian value of a byte list. -/
def leValue (l : List Nat) : Nat := l.foldr (fun b acc => b + 256 * acc) 0

/-- Modelled from the spec: `eosjs2-numeric.signedBinaryToDecimal(bytes,
minDigits)` — the external binary-to-decimal codec (its source is not part of
this repository).  Per the spec it renders the two's-complement value as a
signed decimal string with at least `minDigits` digits (zero-padded). -/
def signedBinaryToDecimal (bytes : List Nat) (minDigits : Nat) : String :=
  let n := leValue bytes
  let w := bytes.length
  let i : Int := if 2 * n < 2 ^ (8 * w) then (n : Int) else (n : Int) - 2 ^ (8 * w)
  let digits := natDecimal i.natAbs
  let padded := String.mk (List.replicate (minDigits - digits.length) '0' ++ digits.data)
  if i < 0 then "-" ++ padded else padded

/-- A character in `'0'..'9'`, as tested by `pushAsset`. -/
def isDigitChar (c : Char) : Bool := 48 ≤ c.toNat ∧ c.toNat ≤ 57

/-- `pushAsset(s)`: trim; optional `-`; mandatory digit run (else
`'Asset must begin with a number'`); optional `.` plus fractional digits whose
count becomes the precision; the trimmed remainder is the symbol name.  The
digit string goes through the external signed codec into 8 bytes, then the
symbol is pushed. -/
def Buf.pushAsset (b : Buf) (s : String) : Except Err Buf :=
  let cs := trimChars s.data
  let sign : List Char := if cs.headD ' ' = '-' then ['-'] else []
  let cs := if cs.headD ' ' = '-' then cs.tail else cs
  let digits := cs.takeWhile isDigitChar
  let rest := cs.dropWhile isDigitChar
  if digits.isEmpty then .error .malformedAsset
  else
    let frac := if rest.headD ' ' = '.' then rest.tail.takeWhile isDigitChar else []
    let rest := if rest.headD ' ' = '.' then rest.tail.dropWhile isDigitChar else rest
    let amount := String.mk (sign ++ digits ++ frac)
    let precision := frac.length
    let name := String.mk (trimChars rest)
    let b := b.pushArray (signedDecimalToBinary 8 amount)
    .ok (b.pushSymbol name precision)

/-- `getAsset()`: 8 amount bytes, the symbol, decimal rendering with
`precision + 1` minimum digits, then reinsert the decimal point `precision`
digits from the end when the precision is non-zero. -/
def Buf.getAsset (b : Buf) : Except Err (String × Buf) :=
  match b.getUint8Array 8 with
  | .error e => .error e
  | .ok (amount, b) =>
    match b.getSymbol with
    | .error e => .error e
    | .ok ((name, precision), b) =>
      let s := signedBinaryToDecimal amount (precision + 1)
      let s := if precision ≠ 0 then
          String.mk ((s.data.take (s.data.length - precision)) ++ '.'
            :: s.data.drop (s.data.length - precision))
        else s
      .ok (s ++ " " ++ name, b)

/-- C6: encoding then decoding `"1.2500 SYS"` returns `"1.2500 SYS"`;
`"-5 SYS"` round-trips preserving the sign and zero precision; `".5 SYS"`
(no digit before the decimal point) fails with the malformed-asset error. -/
theorem c6_asset_text_codec :
    ((Buf.pushAsset ⟨[], 0⟩ "1.2500 SYS").bind Buf.getAsset).map Prod.fst
        = .ok "1.2500 SYS" ∧
    ((Buf.pushAsset ⟨[], 0⟩ "-5 SYS").bind Buf.getAsset).map Prod.fst = .ok "-5 SYS" ∧
    Buf.pushAsset ⟨[], 0⟩ ".5 SYS" = .error .malformedAsset := by
  refine ⟨?_, ?_, ?_⟩ <;> rfl

theorem c4_witness :
    nameBytes (getNameStr [0, 1, 2, 3, 4, 5, 6, 255]) = [0, 1, 2, 3, 4, 5, 6, 255] ∧
    (getNameStr [0, 1, 2, 3, 4, 5, 6, 255]).length ≤ 13 :=
  c4_packed_name_roundtrip.1 [0, 1, 2, 3, 4, 5, 6, 255] rfl (by decide)

/-! ### Length-prefixed bytes and strings -/

/-- `pushBytes(v)`. -/
def Buf.pushBytes (b : Buf) (vs : List Nat) : Buf :=
  (b.pushVaruint32 vs.length).pushArray vs

/-- `getBytes()`. -/
def Buf.getBytes (b : Buf) : Except Err (List Nat × Buf) :=
  match b.getVaruint32 with
  | .error e => .error e
  | .ok (len, b) => b.getUint8Array len

/-- `pushString(v)`. -/
def Buf.pushString (b : Buf) (s : String) : Buf :=
  b.pushBytes (utf8Encode s)

/-- `getString()`. -/
def Buf.getString (b : Buf) : Except Err (String × Buf) :=
  match b.getBytes with
  | .error e => .error e
  | .ok (bytes, b) => .ok (utf8Decode bytes, b)

/-! ### The runtime type system -/

/-- JSON-like in-memory values handled by the codecs. -/
inductive Value where
  | vNull
  | vBool (b : Bool)
  | vNum (n : Nat)
  | vStr (s : String)
  | vArr (vs : List Value)
  | vObj (kvs : List (String × Value))

/-- JavaScript property assignment on the model object: update the entry in
place when the key exists, otherwise append it. -/
def setAssoc : List (String × Value) → String → Value → List (String × Value)
  | [], k, nv => [(k, nv)]
  | (k', v') :: rest, k, nv =>
    if k' = k then (k, nv) :: rest else (k', v') :: setAssoc rest k nv

/-- The resolved type graph: primitive leaves carry their codec, `structTy`
carries the resolved base and field types (`base` / `field.type` after the
resolve phase), `arrayTy`/`optionTy` are the synthesized composites.  A
well-formed compiled type is a finite tree, which this inductive captures. -/
inductive Ty where
  | bool
  | uint8
  | varuint32
  | nameTy
  | asset
  | stringTy
  | structTy (name : String) (base : Option Ty) (fields : List (String × Ty))
  | arrayTy (elem : Ty)
  | optionTy (inner : Ty)

mutual

/-- `type.serialize(buffer, data)`: dispatches on the node, mirroring the
closures installed by `createInitialTypes`, `serializeStruct`,
`serializeArray` and `serializeOptional`.  A value of the wrong shape yields
`typeMismatch` (the source throws a TypeError). -/
def serialize : Ty → Value → Buf → Except Err Buf
  | .bool, v, b =>
    match v with
    | .vBool bv => .ok (b.push (if bv then 1 else 0))
    | _ => .error .typeMismatch
  | .uint8, v, b =>
    match v with
    | .vNum n => .ok (b.push n)
    | _ => .error .typeMismatch
  | .varuint32, v, b =>
    match v with
    | .vNum n => .ok (b.pushVaruint32 n)
    | _ => .error .typeMismatch
  | .nameTy, v, b =>
    match v with
    | .vStr s => .ok (b.pushName s)
    | _ => .error .typeMismatch
  | .asset, v, b =>
    match v with
    | .vStr s => b.pushAsset s
    | _ => .error .typeMismatch
  | .stringTy, v, b =>
    match v with
    | .vStr s => .ok (b.pushString s)
    | _ => .error .typeMismatch
  | .structTy nm base fields, v, b =>
    match base with
    | some bt =>
      match serialize bt v b with
      | .error e => .error e
      | .ok b => serializeFields nm fields v b
    | none => serializeFields nm fields v b
  | .arrayTy t, v, b =>
    match v with
    | .vArr vs => serializeElems t vs (b.pushVaruint32 vs.length)
    | _ => .error .typeMismatch
  | .optionTy t, v, b =>
    match v with
    | .vNull => .ok (b.push 0)
    | v => serialize t v (b.push 1)
termination_by t v _ => (sizeOf t, sizeOf v)
decreasing_by
  all_goals simp_wf
  all_goals omega

/-- The field loop of `serializeStruct`: `if (!(field.name in data)) throw
missing; field.type.serialize(buffer, data[field.name])`. -/
def serializeFields : String → List (String × Ty) → Value → Buf → Except Err Buf
  | _, [], _, b => .ok b
  | nm, (fn, ft) :: rest, v, b =>
    match v with
    | .vObj kvs =>
      match kvs.lookup fn with
      | none => .error (.missingField nm fn)
      | some fv =>
        match serialize ft fv b with
        | .error e => .error e
        | .ok b => serializeFields nm rest v b
    | _ => .error .typeMismatch
termination_by _ fields v _ => (sizeOf fields, sizeOf v)
decreasing_by
  all_goals simp_wf
  all_goals omega

/-- The element loop of `serializeArray`. -/
def serializeElems : Ty → List Value → Buf → Except Err Buf
  | _, [], b => .ok b
  | t, v :: vs, b =>
    match serialize t v b with
    | .error e => .error e
    | .ok b => serializeElems t vs b
termination_by t vs _ => (sizeOf t, sizeOf vs)
decreasing_by
  all_goals simp_wf
  all_goals omega

end

mutual

/-- `type.deserialize(buffer)`: mirrors the decode closures; the struct case
assembles one flat object, overwriting base entries on field-name clashes as
JavaScript property assignment does. -/
def deserialize : Ty → Buf → Except Err (Value × Buf)
  | .bool, b =>
    match b.get with
    | .error e => .error e
    | .ok (n, b) => .ok (.vBool (n ≠ 0), b)
  | .uint8, b =>
    match b.get with
    | .error e => .error e
    | .ok (n, b) => .ok (.vNum n, b)
  | .varuint32, b =>
    match b.getVaruint32 with
    | .error e => .error e
    | .ok (n, b) => .ok (.vNum n, b)
  | .nameTy, b =>
    match b.getName with
    | .error e => .error e
    | .ok (s, b) => .ok (.vStr s, b)
  | .asset, b =>
    match b.getAsset with
    | .error e => .error e
    | .ok (s, b) => .ok (.vStr s, b)
  | .stringTy, b =>
    match b.getString with
    | .error e => .error e
    | .ok (s, b) => .ok (.vStr s, b)
  | .structTy _ base fields, b =>
    match base with
    | some bt =>
      match deserialize bt b with
      | .error e => .error e
      | .ok (res, b) => deserializeFields fields res b
    | none => deserializeFields fields (.vObj []) b
  | .arrayTy t, b =>
    match b.getVaruint32 with
    | .error e => .error e
    | .ok (len, b) =>
      match deserializeElems t len b with
      | .error e => .error e
      | .ok (vs, b) => .ok (.vArr vs, b)
  | .optionTy t, b =>
    match b.get with
    | .error e => .error e
    | .ok (flag, b) =>
      if flag ≠ 0 then deserialize t b
      else .ok (.vNull, b)
termination_by t _ => (sizeOf t, 0)
decreasing_by
  all_goals simp_wf
  all_goals omega

/-- The field loop of `deserializeStruct`:
`result[field.name] = field.type.deserialize(buffer)`. -/
def deserializeFields : List (String × Ty) → Value → Buf → Except Err (Value × Buf)
  | [], res, b => .ok (res, b)
  | (fn, ft) :: rest, res, b =>
    match deserialize ft b with
    | .error e => .error e
    | .ok (fv, b) =>
      match res with
      | .vObj kvs => deserializeFields rest (.vObj (setAssoc kvs fn fv)) b
      | _ => .error .typeMismatch
termination_by fields _ _ => (sizeOf fields, 0)
decreasing_by
  all_goals simp_wf
  all_goals omega

/-- The element loop of `deserializeArray`. -/
def deserializeElems : Ty → Nat → Buf → Except Err (List Value × Buf)
  | _, 0, b => .ok ([], b)
  | t, len + 1, b =>
    match deserialize t b with
    | .error e => .error e
    | .ok (v, b) =>
      match deserializeElems t len b with
      | .error e => .error e
      | .ok (vs, b) => .ok (v :: vs, b)
termination_by t len _ => (sizeOf t, len + 1)
decreasing_by
  all_goals simp_wf
  all_goals omega

end

/-- All fields a struct writes, in wire order: the whole base chain first
(recursively), then the struct's own fields in declaration order.  Each entry
records the declaring struct's name (used in the missing-field error), the
field name, and the field type. -/
def flattenStructFields : Ty → List (String × String × Ty)
  | .structTy nm (some bt) fields =>
    flattenStructFields bt ++ fields.map (fun p => (nm, p.1, p.2))
  | .structTy nm none fields => fields.map (fun p => (nm, p.1, p.2))
  | _ => []

/-- One flat pass over a flattened field list — the specification's reading
of the struct encode contract. -/
def serializeFieldsFlat : List (String × String × Ty) → Value → Buf → Except Err Buf
  | [], _, b => .ok b
  | (own, fn, ft) :: rest, v, b =>
    match v with
    | .vObj kvs =>
      match kvs.lookup fn with
      | none => .error (.missingField own fn)
      | some fv =>
        match serialize ft fv b with
        | .error e => .error e
        | .ok b => serializeFieldsFlat rest v b
    | _ => .error .typeMismatch

/-- One flat decoding pass over a flattened field list, accumulating a single
key-to-value mapping. -/
def deserializeFieldsFlat :
    List (String × String × Ty) → Value → Buf → Except Err (Value × Buf)
  | [], res, b => .ok (res, b)
  | (_, fn, ft) :: rest, res, b =>
    match deserialize ft b with
    | .error e => .error e
    | .ok (fv, b) =>
      match res with
      | .vObj kvs => deserializeFieldsFlat rest (.vObj (setAssoc kvs fn fv)) b
      | _ => .error .typeMismatch

/-- A struct node whose base chain consists of struct nodes (the shape the
compiler produces for `struct` declarations whose bases are structs). -/
inductive StructChain : Ty → Prop where
  | base_none (nm : String) (fields : List (String × Ty)) :
      StructChain (.structTy nm none fields)
  | base_some (nm : String) (bt : Ty) (fields : List (String × Ty)) :
      StructChain bt → StructChain (.structTy nm (some bt) fields)

theorem serializeFields_eq_flat (nm : String) :
    ∀ (fields : List (String × Ty)) (v : Value) (b : Buf),
    serializeFields nm fields v b
      = serializeFieldsFlat (fields.map (fun p => (nm, p.1, p.2))) v b := by
  intro fields
  induction fields with
  | nil =>
    intro v b
    rw [serializeFields]
    simp [serializeFieldsFlat]
  | cons hd rest ih =>
    obtain ⟨fn, ft⟩ := hd
    intro v b
    cases v with
    | vObj kvs =>
      simp only [serializeFields, serializeFieldsFlat, List.map_cons]
      cases hkv : kvs.lookup fn with
      | none => simp [hkv]
      | some fv =>
        simp only [hkv]
        cases hs : serialize ft fv b with
        | error e => simp [hs]
        | ok b' =>
          simp only [hs]
          exact ih (Value.vObj kvs) b'
    | vNull => simp [serializeFields, serializeFieldsFlat]
    | vBool x => simp [serializeFields, serializeFieldsFlat]
    | vNum x => simp [serializeFields, serializeFieldsFlat]
    | vStr x => simp [serializeFields, serializeFieldsFlat]
    | vArr x => simp [serializeFields, serializeFieldsFlat]

theorem serializeFieldsFlat_append :
    ∀ (l1 l2 : List (String × String × Ty)) (v : Value) (b : Buf),
    serializeFieldsFlat (l1 ++ l2) v b
      = match serializeFieldsFlat l1 v b with
        | .error e => .error e
        | .ok b2 => serializeFieldsFlat l2 v b2 := by
  intro l1
  induction l1 with
  | nil =>
    intro l2 v b
    simp [serializeFieldsFlat]
  | cons hd rest ih =>
    obtain ⟨own, fn, ft⟩ := hd
    intro l2 v b
    cases v with
    | vObj kvs =>
      simp only [List.cons_append, serializeFieldsFlat]
      cases hkv : kvs.lookup fn with
      | none => simp [hkv]
      | some fv =>
        simp only [hkv]
        cases hs : serialize ft fv b with
        | error e => simp [hs]
        | ok b' =>
          simp only [hs]
          exact ih l2 (Value.vObj kvs) b'
    | vNull => simp [serializeFieldsFlat]
    | vBool x => simp [serializeFieldsFlat]
    | vNum x => simp [serializeFieldsFlat]
    | vStr x => simp [serializeFieldsFlat]
    | vArr x => simp [serializeFieldsFlat]

theorem deserializeFields_eq_flat (nm : String) :
    ∀ (fields : List (String × Ty)) (res : Value) (b : Buf),
    deserializeFields fields res b
      = deserializeFieldsFlat (fields.map (fun p => (nm, p.1, p.2))) res b := by
  intro fields
  induction fields with
  | nil =>
    intro res b
    rw [deserializeFields]
    simp [deserializeFieldsFlat]
  | cons hd rest ih =>
    obtain ⟨fn, ft⟩ := hd
    intro res b
    simp only [deserializeFields, deserializeFieldsFlat, List.map_cons]
    cases hd : deserialize ft b with
    | error e => simp [hd]
    | ok p =>
      obtain ⟨fv, b'⟩ := p
      simp only [hd]
      cases res with
      | vObj kvs => exact ih (Value.vObj (setAssoc kvs fn fv)) b'
      | vNull => rfl
      | vBool x => rfl
      | vNum x => rfl
      | vStr x => rfl
      | vArr x => rfl

theorem deserializeFieldsFlat_append :
    ∀ (l1 l2 : List (String × String × Ty)) (res : Value) (b : Buf),
    deserializeFieldsFlat (l1 ++ l2) res b
      = match deserializeFieldsFlat l1 res b with
        | .error e => .error e
        | .ok (res2, b2) => deserializeFieldsFlat l2 res2 b2 := by
  intro l1
  induction l1 with
  | nil =>
    intro l2 res b
    simp [deserializeFieldsFlat]
  | cons hd rest ih =>
    obtain ⟨own, fn, ft⟩ := hd
    intro l2 res b
    simp only [List.cons_append, deserializeFieldsFlat]
    cases hd : deserialize ft b with
    | error e => simp [hd]
    | ok p =>
      obtain ⟨fv, b'⟩ := p
      simp only [hd]
      cases res with
      | vObj kvs => exact ih l2 (Value.vObj (setAssoc kvs fn fv)) b'
      | vNull => rfl
      | vBool x => rfl
      | vNum x => rfl
      | vStr x => rfl
      | vArr x => rfl

theorem serialize_structChain_flat :
    ∀ t : Ty, StructChain t → ∀ (v : Value) (b : Buf),
    serialize t v b = serializeFieldsFlat (flattenStructFields t) v b := by
  intro t hchain
  induction hchain with
  | base_none nm fields =>
    intro v b
    rw [serialize, flattenStructFields]
    exact serializeFields_eq_flat nm fields v b
  | base_some nm bt fields hbt ih =>
    intro v b
    rw [serialize, flattenStructFields, serializeFieldsFlat_append, ← ih v b]
    cases hs : serialize bt v b with
    | error e => rfl
    | ok b' =>
      simp only []
      exact serializeFields_eq_flat nm fields v b'

theorem deserialize_structChain_flat :
    ∀ t : Ty, StructChain t → ∀ b : Buf,
    deserialize t b = deserializeFieldsFlat (flattenStructFields t) (.vObj []) b := by
  intro t hchain
  induction hchain with
  | base_none nm fields =>
    intro b
    rw [deserialize, flattenStructFields]
    exact deserializeFields_eq_flat nm fields (.vObj []) b
  | base_some nm bt fields hbt ih =>
    intro b
    rw [deserialize, flattenStructFields, deserializeFieldsFlat_append, ← ih b]
    cases hs : deserialize bt b with
    | error e => rfl
    | ok p =>
      obtain ⟨res, b'⟩ := p
      simp only []
      exact deserializeFields_eq_flat nm fields res b'

theorem serializeFieldsFlat_ok_lookup :
    ∀ (l : List (String × String × Ty)) (kvs : List (String × Value)) (b b' : Buf),
    serializeFieldsFlat l (.vObj kvs) b = .ok b' →
    ∀ e ∈ l, (kvs.lookup e.2.1).isSome := by
  intro l
  induction l with
  | nil =>
    intro kvs b b' _ e he
    cases he
  | cons hd rest ih =>
    obtain ⟨own, fn, ft⟩ := hd
    intro kvs b b' hok e he
    rw [serializeFieldsFlat] at hok
    cases hkv : kvs.lookup fn with
    | none =>
      simp only [hkv] at hok
      cases hok
    | some fv =>
      simp only [hkv] at hok
      cases hs : serialize ft fv b with
      | error e2 =>
        simp only [hs] at hok
        cases hok
      | ok b2 =>
        simp only [hs] at hok
        rcases List.mem_cons.mp he with rfl | he'
        · simp [hkv]
        · exact ih kvs b2 b' hok e he'

theorem varuintChars_zero : varuintChars 0 = [0] := by
  rw [varuintChars]
  simp

/-- C1: for every struct type whose base chain consists of structs (the shape
the compiler produces) and every input value: encoding equals one flat pass
over the flattened field list — the whole base chain's fields first,
recursively, then the struct's own fields in declaration order; when the
input lacks a declared field (and the earlier fields encode successfully)
encoding fails with the missing-field error naming that field; a successful
encoding implies every declared field was present; and decoding equals the
flat pass that assembles one single key-to-value mapping over base and own
fields in the same order. -/
theorem c1_struct_encode_decode_order :
    ∀ t : Ty, StructChain t →
      (∀ (v : Value) (b : Buf),
        serialize t v b = serializeFieldsFlat (flattenStructFields t) v b) ∧
      (∀ b : Buf,
        deserialize t b = deserializeFieldsFlat (flattenStructFields t) (.vObj []) b) ∧
      (∀ (kvs : List (String × Value)) (b b' : Buf)
          (pre : List (String × String × Ty)) (own fn : String) (ft : Ty)
          (post : List (String × String × Ty)),
        flattenStructFields t = pre ++ (own, fn, ft) :: post →
        kvs.lookup fn = none →
        serializeFieldsFlat pre (.vObj kvs) b = .ok b' →
        serialize t (.vObj kvs) b = .error (.missingField own fn)) ∧
      (∀ (kvs : List (String × Value)) (b b' : Buf),
        serialize t (.vObj kvs) b = .ok b' →
        ∀ e ∈ flattenStructFields t, (kvs.lookup e.2.1).isSome) := by
  intro t hchain
  refine ⟨serialize_structChain_flat t hchain, deserialize_structChain_flat t hchain,
    ?_, ?_⟩
  · intro kvs b b' pre own fn ft post hflat hlook hpre
    rw [serialize_structChain_flat t hchain, hflat, serializeFieldsFlat_append, hpre]
    simp only []
    rw [serializeFieldsFlat]
    simp [hlook]
  · intro kvs b b' hok e he
    rw [serialize_structChain_flat t hchain] at hok
    exact serializeFieldsFlat_ok_lookup _ kvs b b' hok e he

theorem c1_witness :
    serialize (Ty.structTy "derived" (some (Ty.structTy "base" none [("a", Ty.uint8)]))
        [("b", Ty.uint8)]) (.vObj []) ⟨[], 0⟩
      = .error (.missingField "base" "a") := by
  have hchain : StructChain (Ty.structTy "derived"
      (some (Ty.structTy "base" none [("a", Ty.uint8)])) [("b", Ty.uint8)]) :=
    .base_some _ _ _ (.base_none _ _)
  exact (c1_struct_encode_decode_order _ hchain).2.2.1 [] ⟨[], 0⟩ ⟨[], 0⟩ []
    "base" "a" Ty.uint8 [("derived", "b", Ty.uint8)] rfl rfl rfl

/-- C5: encoding the empty array writes exactly the single byte 0 (a
zero-valued varuint32 length) and nothing else; encoding an absent optional
(`null`/`undefined`) writes exactly the single byte 0; encoding a present
optional writes the byte 1 followed by the inner type's encoding. -/
theorem c5_empty_array_absent_present_optionals :
    (∀ (t : Ty) (b : Buf),
      serialize (.arrayTy t) (.vArr []) b = .ok { b with data := b.data ++ [0] }) ∧
    (∀ (t : Ty) (b : Buf),
      serialize (.optionTy t) .vNull b = .ok { b with data := b.data ++ [0] }) ∧
    (∀ (t : Ty) (v : Value) (b : Buf), v ≠ .vNull →
      serialize (.optionTy t) v b = serialize t v (b.push 1)) := by
  refine ⟨?_, ?_, ?_⟩
  · intro t b
    simp only [serialize]
    rw [serializeElems]
    rw [Buf.pushVaruint32]
    norm_num
    rw [pushVaruint32Go_eq, varuintChars_zero]
  · intro t b
    simp [serialize, Buf.push]
  · intro t v b hv
    cases v with
    | vNull => exact absurd rfl hv
    | vBool x => simp [serialize]
    | vNum x => simp [serialize]
    | vStr x => simp [serialize]
    | vArr x => simp [serialize]
    | vObj x => simp [serialize]

theorem c5_witness :
    serialize (Ty.arrayTy Ty.uint8) (.vArr []) ⟨[], 0⟩ = .ok ⟨[0], 0⟩ ∧
    serialize (Ty.optionTy Ty.uint8) (.vNum 5) ⟨[], 0⟩
      = serialize Ty.uint8 (.vNum 5) (Buf.push ⟨[], 0⟩ 1) := by
  constructor
  · have h := c5_empty_array_absent_present_optionals.1 Ty.uint8 ⟨[], 0⟩
    simpa using h
  · exact c5_empty_array_absent_present_optionals.2.2 Ty.uint8 (.vNum 5) ⟨[], 0⟩
      (fun h => Value.noConfusion h)

/-! ## The type registry: `createInitialTypes`, `getType`, `getTypesFromAbi`

JavaScript `Type` objects live on a heap and are shared by reference: a
`Map<string, Type>` stores references, and `new Map(initialTypes)` copies
only the references.  We model the heap as a `Store` (a list of `TypeNode`s
addressed by index), registries as insertion-ordered association lists of
references, and the serialize/deserialize function fields of a `Type` by a
`SerKind` tag. -/

inductive SerKind where
  | unknown
  | primOp (nm : String)
  | structOp
  | arrayOp
  | optionalOp
deriving Repr, DecidableEq

structure FieldNode where
  name : String
  typeName : String
  type : Option Nat
deriving Repr, DecidableEq

structure TypeNode where
  name : String
  aliasOfName : String
  arrayOf : Option Nat
  optionalOf : Option Nat
  baseName : String
  base : Option Nat
  fields : List FieldNode
  serKind : SerKind
deriving Repr, DecidableEq

/-- The defaults filled in by `createType`. -/
def typeDefault : TypeNode :=
  { name := "<missing name>", aliasOfName := "", arrayOf := none, optionalOf := none,
    baseName := "", base := none, fields := [], serKind := .unknown }

def fieldDefault : FieldNode := { name := "", typeName := "", type := none }

abbrev Store := List TypeNode

/-- Allocate a fresh `Type` object on the heap, returning its reference. -/
def alloc (st : Store) (n : TypeNode) : Store × Nat := (st ++ [n], st.length)

abbrev TypeMap := List (String × Nat)

def tmGet (m : TypeMap) (k : String) : Option Nat := m.lookup k

/-- JS `Map.set`: update an existing key in place (keeping insertion order),
otherwise append. -/
def tmSet : TypeMap → String → Nat → TypeMap
  | [], k, v => [(k, v)]
  | (k', v') :: rest, k, v =>
    if k' = k then (k', v) :: rest else (k', v') :: tmSet rest k v

def primNames : List String :=
  ["bool", "uint8", "int8", "uint16", "int16", "uint32", "uint64", "int64", "int32",
   "varuint32", "varint32", "uint128", "int128", "float32", "float64", "float128",
   "bytes", "string", "name", "time_point", "time_point_sec", "block_timestamp_type",
   "symbol_code", "symbol", "asset", "checksum160", "checksum256", "checksum512",
   "public_key", "private_key", "signature"]

/-- `createInitialTypes`: the 31 primitive codecs in source order, then the
`extended_asset` struct whose two fields hold references obtained by
`result.get('asset')` / `result.get('name')`. -/
def createInitialTypes : Store × TypeMap :=
  let st0 : Store := primNames.map (fun n => { typeDefault with name := n, serKind := .primOp n })
  let m0 : TypeMap := primNames.enum.map (fun p => (p.2, p.1))
  let rAsset := (tmGet m0 "asset").getD 0
  let rName := (tmGet m0 "name").getD 0
  let ea : TypeNode := { typeDefault with
    name := "extended_asset", serKind := .structOp,
    fields := [⟨"quantity", "asset", some rAsset⟩, ⟨"contract", "name", some rName⟩] }
  (st0 ++ [ea], tmSet m0 "extended_asset" st0.length)

def strEndsWith (s suffix : String) : Bool := List.isSuffixOf suffix.data s.data

def strDropRight (s : String) (n : Nat) : String := String.mk (s.data.take (s.data.length - n))

/-- `getType`: chase aliases, synthesize `T[]` and `T?` types on demand
(allocating fresh nodes), otherwise fail with `UnknownType`.  The `fuel`
argument bounds the alias recursion, which in the source is unbounded
(a cyclic alias chain would not terminate there either). -/
def getType (st : Store) (types : TypeMap) (name : String) : Nat → Except Err (Store × Nat)
  | 0 => .error .fuelExhausted
  | fuel + 1 =>
    match tmGet types name with
    | some r =>
      if (st.getD r typeDefault).aliasOfName ≠ "" then
        getType st types (st.getD r typeDefault).aliasOfName fuel
      else .ok (st, r)
    | none =>
      if strEndsWith name "[]" then
        match getType st types (strDropRight name 2) fuel with
        | .error e => .error e
        | .ok (st', r) =>
          .ok (alloc st' { typeDefault with name := name, arrayOf := some r, serKind := .arrayOp })
      else if strEndsWith name "?" then
        match getType st types (strDropRight name 1) fuel with
        | .error e => .error e
        | .ok (st', r) =>
          .ok (alloc st' { typeDefault with name := name, optionalOf := some r, serKind := .optionalOp })
      else .error (.unknownType name)

structure AbiType where
  new_type_name : String
  type : String
deriving Repr, DecidableEq

structure AbiField where
  name : String
  type : String
deriving Repr, DecidableEq

structure AbiStruct where
  name : String
  base : String
  fields : List AbiField
deriving Repr, DecidableEq

structure Abi where
  types : List AbiType
  structs : List AbiStruct
deriving Repr, DecidableEq

/-- First loop of `getTypesFromAbi`: declare one alias node per abi type. -/
def declareTypes (st : Store) (m : TypeMap) : List AbiType → Store × TypeMap
  | [] => (st, m)
  | a :: rest =>
    let p := alloc st { typeDefault with name := a.new_type_name, aliasOfName := a.type }
    declareTypes p.1 (tmSet m a.new_type_name p.2) rest

/-- Second loop of `getTypesFromAbi`: declare one struct node per abi struct,
with unresolved (`null`) field types. -/
def declareStructs (st : Store) (m : TypeMap) : List AbiStruct → Store × TypeMap
  | [] => (st, m)
  | s :: rest =>
    let node : TypeNode := { typeDefault with
      name := s.name, baseName := s.base,
      fields := s.fields.map (fun f => ⟨f.name, f.type, none⟩), serKind := .structOp }
    let p := alloc st node
    declareStructs p.1 (tmSet m s.name p.2) rest

/-- In-place update `field.type = getType(...)` of field number `i` of a node. -/
def setFieldType (n : TypeNode) (i : Nat) (r : Nat) : TypeNode :=
  { n with fields := n.fields.set i { n.fields.getD i fieldDefault with type := some r } }

/-- `for (let field of type.fields) field.type = getType(types, field.typeName)`:
field `i` of the node at reference `r` is resolved and mutated in place. -/
def resolveFieldsGo (fuel : Nat) (st : Store) (types : TypeMap) (r : Nat) :
    List Nat → Except Err Store
  | [] => .ok st
  | i :: rest =>
    match getType st types ((st.getD r typeDefault).fields.getD i fieldDefault).typeName fuel with
    | .error e => .error e
    | .ok (st', fr) =>
      resolveFieldsGo fuel (st'.set r (setFieldType (st'.getD r typeDefault) i fr)) types r rest

/-- Resolve one registry entry: mutate `type.base` if it has a `baseName`,
then mutate each `field.type` in order. -/
def resolveEntry (fuel : Nat) (st : Store) (types : TypeMap) (r : Nat) : Except Err Store :=
  let step1 : Except Err Store :=
    if (st.getD r typeDefault).baseName ≠ "" then
      match getType st types (st.getD r typeDefault).baseName fuel with
      | .error e => .error e
      | .ok (st', br) => .ok (st'.set r { st'.getD r typeDefault with base := some br })
    else .ok st
  match step1 with
  | .error e => .error e
  | .ok st1 =>
    resolveFieldsGo fuel st1 types r (List.range (st1.getD r typeDefault).fields.length)

/-- `for (let [name, type] of types)`: resolve every entry in insertion order. -/
def resolveAll (fuel : Nat) (st : Store) (types : TypeMap) : List (String × Nat) → Except Err Store
  | [] => .ok st
  | e :: rest =>
    match resolveEntry fuel st types e.2 with
    | .error err => .error err
    | .ok st' => resolveAll fuel st' types rest

/-- `getTypesFromAbi`: shallow-copy the registry (`new Map(initialTypes)` copies
references, so the heap `Store` is shared), declare aliases and structs, then
resolve every entry's base and field references. -/
def getTypesFromAbi (fuel : Nat) (init : Store × TypeMap) (abi : Abi) :
    Except Err (Store × TypeMap) :=
  let p1 := declareTypes init.1 init.2 abi.types
  let p2 := declareStructs p1.1 p1.2 abi.structs
  match resolveAll fuel p2.1 p2.2 p2.2 with
  | .error e => .error e
  | .ok st3 => .ok (st3, p2.2)

theorem getD_append_lt {α : Type} (l l' : List α) (q : Nat) (d : α) (h : q < l.length) :
    (l ++ l').getD q d = l.getD q d := by
  simp [List.getD_eq_getElem?_getD, List.getElem?_append, h]

theorem getD_set_eq_gen {α : Type} (l : List α) (i : Nat) (x d : α) (h : i < l.length) :
    (l.set i x).getD i d = x := by
  simp [List.getD_eq_getElem?_getD, List.getElem?_set, h]

theorem getD_set_ne_gen {α : Type} (l : List α) {i j : Nat} (x d : α) (h : i ≠ j) :
    (l.set i x).getD j d = l.getD j d := by
  simp [List.getD_eq_getElem?_getD, List.getElem?_set, h]

theorem set_getD_self_gen {α : Type} :
    ∀ (l : List α) (p : Nat) (d : α), l.set p (l.getD p d) = l := by
  intro l
  induction l with
  | nil => intro p d; rfl
  | cons a rest ih =>
    intro p d
    cases p with
    | zero => rfl
    | succ p => simpa using ih p d

theorem set_oob {α : Type} : ∀ (l : List α) (p : Nat) (x : α), l.length ≤ p → l.set p x = l := by
  intro l
  induction l with
  | nil => intro p x _; cases p <;> rfl
  | cons a rest ih =>
    intro p x hp
    cases p with
    | zero => simp at hp
    | succ p =>
      simp only [List.length_cons] at hp
      simp [List.set, ih p x (by omega)]

theorem getType_store_ext :
    ∀ (fuel : Nat) (st : Store) (types : TypeMap) (nm : String) (st' : Store) (r : Nat),
      getType st types nm fuel = .ok (st', r) → ∃ tl, st' = st ++ tl := by
  intro fuel
  induction fuel with
  | zero =>
    intro st types nm st' r h
    rw [getType] at h
    cases h
  | succ fuel ih =>
    intro st types nm st' r h
    rw [getType] at h
    cases htm : tmGet types nm with
    | some r0 =>
      simp only [htm] at h
      by_cases halias : (st.getD r0 typeDefault).aliasOfName ≠ ""
      · rw [if_pos halias] at h
        exact ih st types _ st' r h
      · rw [if_neg halias] at h
        cases h
        exact ⟨[], by simp⟩
    | none =>
      simp only [htm] at h
      by_cases harr : strEndsWith nm "[]" = true
      · rw [if_pos harr] at h
        cases hrec : getType st types (strDropRight nm 2) fuel with
        | error e => rw [hrec] at h; cases h
        | ok p =>
          rw [hrec] at h
          obtain ⟨tl, htl⟩ := ih st types _ p.1 p.2 hrec
          simp only [alloc] at h
          cases h
          exact ⟨_, by rw [htl, List.append_assoc]⟩
      · rw [if_neg harr] at h
        by_cases hopt : strEndsWith nm "?" = true
        · rw [if_pos hopt] at h
          cases hrec : getType st types (strDropRight nm 1) fuel with
          | error e => rw [hrec] at h; cases h
          | ok p =>
            rw [hrec] at h
            obtain ⟨tl, htl⟩ := ih st types _ p.1 p.2 hrec
            simp only [alloc] at h
            cases h
            exact ⟨_, by rw [htl, List.append_assoc]⟩
        · rw [if_neg hopt] at h
          cases h

/-- Everything about a `Type` object except the resolved `base` / `field.type`
references that the resolve loop rewrites. -/
def nodeShapeEq (a b : TypeNode) : Prop :=
  a.name = b.name ∧ a.aliasOfName = b.aliasOfName ∧ a.arrayOf = b.arrayOf ∧
  a.optionalOf = b.optionalOf ∧ a.baseName = b.baseName ∧ a.base = b.base ∧
  a.serKind = b.serKind ∧
  a.fields.map (fun f => (f.name, f.typeName)) = b.fields.map (fun f => (f.name, f.typeName))

theorem nodeShapeEq_refl (a : TypeNode) : nodeShapeEq a a :=
  ⟨rfl, rfl, rfl, rfl, rfl, rfl, rfl, rfl⟩

theorem nodeShapeEq_trans {a b c : TypeNode} (h1 : nodeShapeEq a b) (h2 : nodeShapeEq b c) :
    nodeShapeEq a c := by
  obtain ⟨a1, a2, a3, a4, a5, a6, a7, a8⟩ := h1
  obtain ⟨b1, b2, b3, b4, b5, b6, b7, b8⟩ := h2
  exact ⟨a1.trans b1, a2.trans b2, a3.trans b3, a4.trans b4, a5.trans b5, a6.trans b6,
    a7.trans b7, a8.trans b8⟩

theorem setFieldType_shape (n : TypeNode) (i fr : Nat) : nodeShapeEq (setFieldType n i fr) n := by
  refine ⟨rfl, rfl, rfl, rfl, rfl, rfl, rfl, ?_⟩
  show (n.fields.set i { n.fields.getD i fieldDefault with type := some fr }).map _ = _
  by_cases hi : i < n.fields.length
  · rw [List.map_set]
    show (List.map (fun f => (f.name, f.typeName)) n.fields).set i
        ((n.fields.getD i fieldDefault).name, (n.fields.getD i fieldDefault).typeName)
      = List.map (fun f => (f.name, f.typeName)) n.fields
    have h2 : ((n.fields.getD i fieldDefault).name, (n.fields.getD i fieldDefault).typeName)
        = (List.map (fun f => (f.name, f.typeName)) n.fields).getD i
            (fieldDefault.name, fieldDefault.typeName) := by
      simp [List.getD_eq_getElem?_getD, List.getElem?_map, List.getElem?_eq_getElem hi]
    rw [h2, set_getD_self_gen]
  · rw [set_oob _ _ _ (by omega)]

theorem resolveFieldsGo_spec :
    ∀ (l : List Nat) (fuel : Nat) (types : TypeMap) (r : Nat) (st st' : Store),
      resolveFieldsGo fuel st types r l = .ok st' →
      st.length ≤ st'.length ∧
      (∀ q, q < st.length → q ≠ r → st'.getD q typeDefault = st.getD q typeDefault) ∧
      (r < st.length → nodeShapeEq (st'.getD r typeDefault) (st.getD r typeDefault)) := by
  intro l
  induction l with
  | nil =>
    intro fuel types r st st' h
    rw [resolveFieldsGo] at h
    cases h
    exact ⟨le_refl _, fun q _ _ => rfl, fun _ => nodeShapeEq_refl _⟩
  | cons i rest ih =>
    intro fuel types r st st' h
    rw [resolveFieldsGo] at h
    cases hg : getType st types ((st.getD r typeDefault).fields.getD i fieldDefault).typeName
        fuel with
    | error e => rw [hg] at h; cases h
    | ok p =>
      rw [hg] at h
      obtain ⟨tl, htl⟩ := getType_store_ext fuel st types _ p.1 p.2 hg
      have hp1len : p.1.length = st.length + tl.length := by rw [htl]; simp
      obtain ⟨hlen2, hq2, hshape2⟩ := ih fuel types r _ st' h
      have hst2len : (p.1.set r (setFieldType (p.1.getD r typeDefault) i p.2)).length
          = st.length + tl.length := by simp [hp1len]
      refine ⟨by omega, ?_, ?_⟩
      · intro q hq hqr
        rw [hq2 q (by omega) hqr, getD_set_ne_gen _ _ _ (fun he => hqr he.symm), htl,
          getD_append_lt _ _ _ _ hq]
      · intro hr
        have hs := hshape2 (by omega)
        rw [getD_set_eq_gen _ _ _ _ (by omega), htl, getD_append_lt _ _ _ _ hr] at hs
        exact nodeShapeEq_trans hs (setFieldType_shape _ _ _)

theorem resolveEntry_noop (fuel : Nat) (st : Store) (types : TypeMap) (r : Nat)
    (h1 : (st.getD r typeDefault).baseName = "") (h2 : (st.getD r typeDefault).fields = []) :
    resolveEntry fuel st types r = .ok st := by
  rw [resolveEntry]
  have hb' : ¬((st.getD r typeDefault).baseName ≠ "") := fun hc => hc h1
  rw [if_neg hb']
  show resolveFieldsGo fuel st types r (List.range (st.getD r typeDefault).fields.length)
    = .ok st
  rw [h2]
  simp only [List.length_nil, List.range_zero]
  rw [resolveFieldsGo]

theorem resolveEntry_spec_nobase (fuel : Nat) (st : Store) (types : TypeMap) (r : Nat)
    (st' : Store) (hb : (st.getD r typeDefault).baseName = "")
    (h : resolveEntry fuel st types r = .ok st') :
    st.length ≤ st'.length ∧
    (∀ q, q < st.length → q ≠ r → st'.getD q typeDefault = st.getD q typeDefault) ∧
    (r < st.length → nodeShapeEq (st'.getD r typeDefault) (st.getD r typeDefault)) := by
  rw [resolveEntry] at h
  have hb' : ¬((st.getD r typeDefault).baseName ≠ "") := fun hc => hc hb
  rw [if_neg hb'] at h
  exact resolveFieldsGo_spec _ fuel types r st st' h

theorem resolveEntry_others (fuel : Nat) (st : Store) (types : TypeMap) (r : Nat)
    (st' : Store) (h : resolveEntry fuel st types r = .ok st') :
    st.length ≤ st'.length ∧
    (∀ q, q < st.length → q ≠ r → st'.getD q typeDefault = st.getD q typeDefault) := by
  rw [resolveEntry] at h
  by_cases hb : (st.getD r typeDefault).baseName ≠ ""
  · rw [if_pos hb] at h
    cases hg : getType st types (st.getD r typeDefault).baseName fuel with
    | error e => simp only [hg] at h; cases h
    | ok p =>
      obtain ⟨st1, br⟩ := p
      simp only [hg] at h
      obtain ⟨tl, htl⟩ := getType_store_ext fuel st types _ st1 br hg
      have hp1len : st1.length = st.length + tl.length := by rw [htl]; simp
      obtain ⟨hlen2, hq2, _⟩ := resolveFieldsGo_spec _ fuel types r
        (st1.set r { st1.getD r typeDefault with base := some br }) st' h
      have hsetlen : (st1.set r { st1.getD r typeDefault with base := some br }).length
          = st.length + tl.length := by simp [hp1len]
      refine ⟨by omega, ?_⟩
      intro q hq hqr
      rw [hq2 q (by omega) hqr, getD_set_ne_gen _ _ _ (fun he => hqr he.symm), htl,
        getD_append_lt _ _ _ _ hq]
  · rw [if_neg hb] at h
    obtain ⟨hlen, hq, _⟩ := resolveFieldsGo_spec _ fuel types r st st' h
    exact ⟨hlen, hq⟩

/-- Invariant maintained by the resolve loop over the shared heap: the 31
primitive bootstrap nodes are untouched and the `extended_asset` node keeps
its shape (only its resolved field references may be rewritten). -/
def Inv31 (st : Store) : Prop :=
  32 ≤ st.length ∧
  (∀ q, q ≤ 30 → st.getD q typeDefault = createInitialTypes.1.getD q typeDefault) ∧
  nodeShapeEq (st.getD 31 typeDefault) (createInitialTypes.1.getD 31 typeDefault)

theorem prim_nodes_trivial :
    ∀ q, q ≤ 30 → (createInitialTypes.1.getD q typeDefault).baseName = ""
      ∧ (createInitialTypes.1.getD q typeDefault).fields = [] := by decide

theorem ea_baseName : (createInitialTypes.1.getD 31 typeDefault).baseName = "" := rfl

theorem createInitialTypes_length : createInitialTypes.1.length = 32 := rfl

theorem resolveEntry_inv (fuel : Nat) (types : TypeMap) (r : Nat) (st st' : Store)
    (hInv : Inv31 st) (h : resolveEntry fuel st types r = .ok st') : Inv31 st' := by
  obtain ⟨hlen, hq, hshape⟩ := hInv
  by_cases hr30 : r ≤ 30
  · have hpq := prim_nodes_trivial r hr30
    have hb : (st.getD r typeDefault).baseName = "" := by rw [hq r hr30]; exact hpq.1
    have hf : (st.getD r typeDefault).fields = [] := by rw [hq r hr30]; exact hpq.2
    have hnoop := resolveEntry_noop fuel st types r hb hf
    rw [hnoop] at h
    cases h
    exact ⟨hlen, hq, hshape⟩
  · by_cases hr31 : r = 31
    · subst hr31
      have hb : (st.getD 31 typeDefault).baseName = "" := by
        rw [hshape.2.2.2.2.1]
        exact ea_baseName
      obtain ⟨h1, h2, h3⟩ := resolveEntry_spec_nobase fuel st types 31 st' hb h
      refine ⟨by omega, ?_, ?_⟩
      · intro q hq30
        rw [h2 q (by omega) (by omega)]
        exact hq q hq30
      · exact nodeShapeEq_trans (h3 (by omega)) hshape
    · obtain ⟨h1, h2⟩ := resolveEntry_others fuel st types r st' h
      refine ⟨by omega, ?_, ?_⟩
      · intro q hq30
        rw [h2 q (by omega) (by omega)]
        exact hq q hq30
      · rw [h2 31 (by omega) (fun he => hr31 he.symm)]
        exact hshape

theorem resolveAll_inv :
    ∀ (entries : List (String × Nat)) (fuel : Nat) (types : TypeMap) (st st' : Store),
      Inv31 st → resolveAll fuel st types entries = .ok st' → Inv31 st' := by
  intro entries
  induction entries with
  | nil =>
    intro fuel types st st' hInv h
    rw [resolveAll] at h
    cases h
    exact hInv
  | cons e rest ih =>
    intro fuel types st st' hInv h
    rw [resolveAll] at h
    cases hre : resolveEntry fuel st types e.2 with
    | error err => simp only [hre] at h; cases h
    | ok st1 =>
      simp only [hre] at h
      exact ih fuel types st1 st' (resolveEntry_inv fuel types e.2 st st1 hInv hre) h

theorem declareTypes_store :
    ∀ (l : List AbiType) (st : Store) (m : TypeMap), ∃ tl, (declareTypes st m l).1 = st ++ tl := by
  intro l
  induction l with
  | nil => intro st m; exact ⟨[], by rw [declareTypes]; simp⟩
  | cons a rest ih =>
    intro st m
    rw [declareTypes]
    simp only [alloc]
    generalize ({ typeDefault with name := a.new_type_name, aliasOfName := a.type } : TypeNode)
      = node
    obtain ⟨tl, htl⟩ := ih (st ++ [node]) (tmSet m a.new_type_name st.length)
    exact ⟨[node] ++ tl, htl.trans (List.append_assoc st [node] tl)⟩

theorem declareStructs_store :
    ∀ (l : List AbiStruct) (st : Store) (m : TypeMap),
      ∃ tl, (declareStructs st m l).1 = st ++ tl := by
  intro l
  induction l with
  | nil => intro st m; exact ⟨[], by rw [declareStructs]; simp⟩
  | cons s rest ih =>
    intro s0 m
    rw [declareStructs]
    simp only [alloc]
    generalize ({ typeDefault with
        name := s.name, baseName := s.base,
        fields := s.fields.map (fun f => ⟨f.name, f.type, none⟩),
        serKind := .structOp } : TypeNode) = node
    obtain ⟨tl, htl⟩ := ih (s0 ++ [node]) (tmSet m s.name s0.length)
    exact ⟨[node] ++ tl, htl.trans (List.append_assoc s0 [node] tl)⟩

/-- C3 as stated is false: compiling the schema whose alias list redefines
`asset` (as `uint8`) succeeds, yet mutates the shared bootstrap
`extended_asset` `Type` object in place — the resolve loop rewrites its
`quantity` field's resolved type reference through the shallow map copy. -/
theorem c3_counterexample :
    ((getTypesFromAbi 8 createInitialTypes ⟨[⟨"asset", "uint8"⟩], []⟩).toOption.map
        (fun p => p.1.getD 31 typeDefault)).isSome = true ∧
    ((getTypesFromAbi 8 createInitialTypes ⟨[⟨"asset", "uint8"⟩], []⟩).toOption.map
        (fun p => p.1.getD 31 typeDefault))
      ≠ some (createInitialTypes.1.getD 31 typeDefault) := by
  constructor
  · rfl
  · decide

/-- C3 (amended): compiling any schema over the shared bootstrap registry
leaves every primitive bootstrap `Type` object (heap references 0–30)
byte-for-byte unchanged, and leaves the bootstrap `extended_asset` object's
name, alias, array/optional links, base name, base link, serializer kind and
field names/type-names unchanged — only its fields' resolved type references
may be rewritten in place (the registry map itself is copied, so no map entry
of the bootstrap registry is added, removed or redirected). -/
theorem c3_bootstrap_frame (abi : Abi) (fuel : Nat) (st' : Store) (m' : TypeMap)
    (h : getTypesFromAbi fuel createInitialTypes abi = .ok (st', m')) :
    (∀ q, q ≤ 30 → st'.getD q typeDefault = createInitialTypes.1.getD q typeDefault) ∧
    nodeShapeEq (st'.getD 31 typeDefault) (createInitialTypes.1.getD 31 typeDefault) := by
  simp only [getTypesFromAbi] at h
  obtain ⟨tl1, htl1⟩ := declareTypes_store abi.types createInitialTypes.1 createInitialTypes.2
  obtain ⟨tl2, htl2⟩ := declareStructs_store abi.structs
    (declareTypes createInitialTypes.1 createInitialTypes.2 abi.types).1
    (declareTypes createInitialTypes.1 createInitialTypes.2 abi.types).2
  cases hra : resolveAll fuel
      (declareStructs (declareTypes createInitialTypes.1 createInitialTypes.2 abi.types).1
        (declareTypes createInitialTypes.1 createInitialTypes.2 abi.types).2 abi.structs).1
      (declareStructs (declareTypes createInitialTypes.1 createInitialTypes.2 abi.types).1
        (declareTypes createInitialTypes.1 createInitialTypes.2 abi.types).2 abi.structs).2
      (declareStructs (declareTypes createInitialTypes.1 createInitialTypes.2 abi.types).1
        (declareTypes createInitialTypes.1 createInitialTypes.2 abi.types).2 abi.structs).2 with
  | error e => simp only [hra] at h; cases h
  | ok st3 =>
    simp only [hra] at h
    cases h
    have h32 := createInitialTypes_length
    have hInvD : Inv31 (declareStructs
        (declareTypes createInitialTypes.1 createInitialTypes.2 abi.types).1
        (declareTypes createInitialTypes.1 createInitialTypes.2 abi.types).2 abi.structs).1 := by
      rw [htl2, htl1]
      refine ⟨?_, ?_, ?_⟩
      · simp [h32]
      · intro q hq30
        rw [getD_append_lt _ _ _ _ (by simp [h32]; omega),
          getD_append_lt _ _ _ _ (by omega)]
      · rw [getD_append_lt _ _ _ _ (by simp [h32]; omega),
          getD_append_lt _ _ _ _ (by omega)]
        exact nodeShapeEq_refl _
    have hInv3 := resolveAll_inv _ fuel _ _ st' hInvD hra
    exact ⟨hInv3.2.1, hInv3.2.2⟩

theorem c3_witness :
    ((getTypesFromAbi 2 createInitialTypes ⟨[], []⟩).toOption.getD
        createInitialTypes).1.getD 5 typeDefault
      = createInitialTypes.1.getD 5 typeDefault ∧
    nodeShapeEq (((getTypesFromAbi 2 createInitialTypes ⟨[], []⟩).toOption.getD
        createInitialTypes).1.getD 31 typeDefault)
      (createInitialTypes.1.getD 31 typeDefault) := by
  have h := c3_bootstrap_frame ⟨[], []⟩ 2
    ((getTypesFromAbi 2 createInitialTypes ⟨[], []⟩).toOption.getD createInitialTypes).1
    ((getTypesFromAbi 2 createInitialTypes ⟨[], []⟩).toOption.getD createInitialTypes).2
    rfl
  exact ⟨h.1 5 (by decide), h.2⟩

/-- A name reaches a heap reference through the registry's alias chain:
either the entry is not an alias, or it aliases a name that itself resolves. -/
inductive ResolvesTo (st : Store) (types : TypeMap) : String → Nat → Prop where
  | direct (nm : String) (r : Nat) (h1 : tmGet types nm = some r)
      (h2 : (st.getD r typeDefault).aliasOfName = "") : ResolvesTo st types nm r
  | step (nm : String) (r r' : Nat) (h1 : tmGet types nm = some r)
      (h2 : (st.getD r typeDefault).aliasOfName ≠ "")
      (h3 : ResolvesTo st types (st.getD r typeDefault).aliasOfName r') :
      ResolvesTo st types nm r'

/-- C7: alias chains of any depth resolve to their ultimate non-alias target
(with fuel at least the chain length, `getType` returns that target's heap
reference and allocates nothing); in particular, in every registry whose
entries `X` and `Y` are aliases with `X → Y → uint8` and whose `uint8` entry
is not an alias, resolving `X` returns the identical type descriptor
(the same heap reference, hence the same codec) as resolving `uint8`. -/
theorem c7_alias_resolution :
    (∀ (st : Store) (types : TypeMap) (nm : String) (r : Nat),
      ResolvesTo st types nm r →
      ∃ k, ∀ fuel, getType st types nm (fuel + k) = .ok (st, r)) ∧
    (∀ (st : Store) (types : TypeMap) (x y : String) (rx ry ru : Nat),
      tmGet types x = some rx → (st.getD rx typeDefault).aliasOfName = y → y ≠ "" →
      tmGet types y = some ry → (st.getD ry typeDefault).aliasOfName = "uint8" →
      tmGet types "uint8" = some ru → (st.getD ru typeDefault).aliasOfName = "" →
      ∀ fuel : Nat,
        getType st types x (fuel + 3) = .ok (st, ru) ∧
        getType st types "uint8" (fuel + 1) = .ok (st, ru)) := by
  constructor
  · intro st types nm r h
    induction h with
    | direct nm r h1 h2 =>
      refine ⟨1, fun fuel => ?_⟩
      rw [getType]
      simp only [h1]
      rw [if_neg (fun hc => hc h2)]
    | step nm r r' h1 h2 h3 ih =>
      obtain ⟨k, hk⟩ := ih
      refine ⟨k + 1, fun fuel => ?_⟩
      rw [show fuel + (k + 1) = (fuel + k) + 1 from rfl, getType]
      simp only [h1]
      rw [if_pos h2]
      exact hk fuel
  · intro st types x y rx ry ru h1 h2 hy h3 h4 h5 h6 fuel
    have hu : getType st types "uint8" (fuel + 1) = .ok (st, ru) := by
      rw [getType]
      simp only [h5]
      rw [if_neg (fun hc => hc h6)]
    refine ⟨?_, hu⟩
    rw [show fuel + 3 = (fuel + 2) + 1 from rfl, getType]
    simp only [h1, h2]
    rw [if_pos hy]
    rw [show fuel + 2 = (fuel + 1) + 1 from rfl, getType]
    simp only [h3, h4]
    rw [if_pos (by simp)]
    exact hu

theorem c7_witness :
    getType (createInitialTypes.1 ++
        [{ typeDefault with name := "X", aliasOfName := "Y" },
         { typeDefault with name := "Y", aliasOfName := "uint8" }])
      (tmSet (tmSet createInitialTypes.2 "X" 32) "Y" 33) "X" 3
      = .ok ((createInitialTypes.1 ++
        [{ typeDefault with name := "X", aliasOfName := "Y" },
         { typeDefault with name := "Y", aliasOfName := "uint8" }]), 1) ∧
    getType (createInitialTypes.1 ++
        [{ typeDefault with name := "X", aliasOfName := "Y" },
         { typeDefault with name := "Y", aliasOfName := "uint8" }])
      (tmSet (tmSet createInitialTypes.2 "X" 32) "Y" 33) "uint8" 1
      = .ok ((createInitialTypes.1 ++
        [{ typeDefault with name := "X", aliasOfName := "Y" },
         { typeDefault with name := "Y", aliasOfName := "uint8" }]), 1) := by
  exact c7_alias_resolution.2 _ _ "X" "Y" 32 33 1 (by decide) (by decide) (by decide)
    (by decide) (by decide) (by decide) (by decide) 0

def hexDigit (n : Nat) : Char :=
  if n < 10 then Char.ofNat (48 + n) else Char.ofNat (55 + n)

/-- `arrayToHex` (with the final `toUpperCase` applied): two hex digits per
byte, in order. -/
def arrayToHex (data : List Nat) : String :=
  ⟨data.foldr (fun x acc => hexDigit (x / 16 % 16) :: hexDigit (x % 16) :: acc) []⟩

/-- A `Contract` as consumed by the action-data helpers: the `actions` map
from action name to the action's serialization type. -/
structure ContractT where
  actions : List (String × Ty)

/-- `serializeActionData`: look the action up, serialize into a fresh buffer,
and render as hex; an undeclared action fails with `UnknownAction`. -/
def serializeActionData (contract : ContractT) (_account nm : String) (data : Value) :
    Except Err String :=
  match contract.actions.lookup nm with
  | none => .error (.unknownAction nm)
  | some t =>
    match serialize t data ⟨[], 0⟩ with
    | .error e => .error e
    | .ok b => .ok (arrayToHex b.data)

/-- `deserializeActionData` on binary data: look the action up, push the bytes
into a fresh buffer, and deserialize; an undeclared action fails with
`UnknownAction`.  (The hex-string input branch decodes to the same bytes.) -/
def deserializeActionData (contract : ContractT) (_account nm : String) (data : List Nat) :
    Except Err Value :=
  match contract.actions.lookup nm with
  | none => .error (.unknownAction nm)
  | some t =>
    match deserialize t (Buf.pushArray ⟨[], 0⟩ data) with
    | .error e => .error e
    | .ok p => .ok p.1

/-- C9: for every contract and action name absent from its actions mapping,
both `serializeActionData` and `deserializeActionData` fail with
`UnknownAction`; and for every registry and name with no entry and neither
the `[]` nor the `?` suffix, `getType` fails with `UnknownType`. -/
theorem c9_unknown_action_unknown_type :
    (∀ (contract : ContractT) (account nm : String) (data : Value),
      contract.actions.lookup nm = none →
      serializeActionData contract account nm data = .error (.unknownAction nm)) ∧
    (∀ (contract : ContractT) (account nm : String) (data : List Nat),
      contract.actions.lookup nm = none →
      deserializeActionData contract account nm data = .error (.unknownAction nm)) ∧
    (∀ (st : Store) (types : TypeMap) (nm : String) (fuel : Nat),
      tmGet types nm = none → strEndsWith nm "[]" = false → strEndsWith nm "?" = false →
      getType st types nm (fuel + 1) = .error (.unknownType nm)) := by
  refine ⟨?_, ?_, ?_⟩
  · intro c account nm data h
    simp [serializeActionData, h]
  · intro c account nm data h
    simp [deserializeActionData, h]
  · intro st types nm fuel h h1 h2
    rw [getType]
    simp [h, h1, h2]

theorem c9_witness :
    serializeActionData ⟨[("transfer", Ty.uint8)]⟩ "acct" "foo" (.vNum 1)
      = .error (.unknownAction "foo") ∧
    deserializeActionData ⟨[("transfer", Ty.uint8)]⟩ "acct" "foo" [1, 2]
      = .error (.unknownAction "foo") ∧
    getType createInitialTypes.1 createInitialTypes.2 "zzz" 1
      = .error (.unknownType "zzz") :=
  ⟨c9_unknown_action_unknown_type.1 ⟨[("transfer", Ty.uint8)]⟩ "acct" "foo" (.vNum 1) rfl,
   c9_unknown_action_unknown_type.2.1 ⟨[("transfer", Ty.uint8)]⟩ "acct" "foo" [1, 2] rfl,
   c9_unknown_action_unknown_type.2.2 createInitialTypes.1 createInitialTypes.2 "zzz" 0
     rfl rfl rfl⟩

/-- The capacity-growth loop of `reserve`:
`while (length + size > l) l = Math.ceil(l * 1.5)` (for naturals,
`Math.ceil(l * 1.5) = (3*l+1)/2`).  With a zero capacity the source loop
would not terminate; the initial capacity is 1024 and growth preserves
positivity, so reachable buffers always have positive capacity. -/
def growl (need : Nat) (l : Nat) : Nat :=
  if h : 0 < l ∧ l < need then growl need ((3 * l + 1) / 2) else l
termination_by need - l
decreasing_by
  simp_wf
  omega

/-- The full `SerialBuffer`: backing `array` (whose length is the capacity),
written `length`, and `readPos`. -/
structure SerialBuffer where
  array : List Nat
  length : Nat
  readPos : Nat
deriving Repr, DecidableEq

/-- `reserve`: grow the backing array if needed; the new backing array is the
old one padded with zeros (`new Uint8Array(l)` is zero-filled and
`newArray.set(this.array)` copies the old contents to the front). -/
def SerialBuffer.reserve (b : SerialBuffer) (size : Nat) : SerialBuffer :=
  if b.length + size ≤ b.array.length then b
  else { b with array := b.array ++
    List.replicate (growl (b.length + size) b.array.length - b.array.length) 0 }

/-- `pushArray`: reserve, overlay the (truncated-to-byte) values at offset
`this.length`, and advance `length` by the value count. -/
def SerialBuffer.pushArray (b : SerialBuffer) (v : List Nat) : SerialBuffer :=
  { array := (b.reserve v.length).array.take b.length ++ v.map (fun x => x % 256)
      ++ (b.reserve v.length).array.drop (b.length + v.length),
    length := b.length + v.length,
    readPos := b.readPos }

def SerialBuffer.push (b : SerialBuffer) (v : Nat) : SerialBuffer := b.pushArray [v]

def SerialBuffer.pushUint8ArrayChecked (b : SerialBuffer) (v : List Nat) (len : Nat) :
    Except Err SerialBuffer :=
  if v.length ≠ len then .error .sizeMismatch else .ok (b.pushArray v)

theorem growl_spec :
    ∀ (k need l : Nat), need - l ≤ k →
      (0 < l → need ≤ growl need l) ∧ l ≤ growl need l := by
  intro k
  induction k with
  | zero =>
    intro need l hk
    rw [growl]
    have hcond : ¬(0 < l ∧ l < need) := by omega
    rw [dif_neg hcond]
    exact ⟨fun _ => by omega, le_refl _⟩
  | succ k ih =>
    intro need l hk
    rw [growl]
    by_cases h : 0 < l ∧ l < need
    · rw [dif_pos h]
      have hrec := ih need ((3 * l + 1) / 2) (by omega)
      refine ⟨fun _ => hrec.1 (by omega), ?_⟩
      have h2 : l ≤ (3 * l + 1) / 2 := by omega
      have h3 := hrec.2
      omega
    · rw [dif_neg h]
      exact ⟨fun hl => by omega, le_refl _⟩

theorem growl_ge (need l : Nat) : (0 < l → need ≤ growl need l) ∧ l ≤ growl need l :=
  growl_spec (need - l) need l (le_refl _)

theorem reserve_spec (b : SerialBuffer) (size : Nat) (hc : 0 < b.array.length) :
    ∃ pad : List Nat, (b.reserve size).array = b.array ++ pad ∧
      b.length + size ≤ (b.reserve size).array.length := by
  rw [SerialBuffer.reserve]
  by_cases hfit : b.length + size ≤ b.array.length
  · rw [if_pos hfit]
    exact ⟨[], by simp, hfit⟩
  · rw [if_neg hfit]
    refine ⟨_, rfl, ?_⟩
    have hg := growl_ge (b.length + size) b.array.length
    have h1 := hg.1 hc
    have h2 := hg.2
    simp only [List.length_append, List.length_replicate]
    omega

/-- C10: every buffer write is append-only.  For any reachable buffer (positive
capacity, written length within capacity): `pushArray` leaves all bytes below
the previous written length unchanged, advances the written length by exactly
the number of values pushed, and does not move the read cursor; `push` of a
single byte is `pushArray` of the one-element array; and the checked push
behaves like `pushArray` exactly when the size matches, failing otherwise
without touching the buffer. -/
theorem c10_append_only_writes :
    ∀ (b : SerialBuffer) (vs : List Nat) (v : Nat) (len : Nat),
      0 < b.array.length → b.length ≤ b.array.length →
      ((∀ i, i < b.length → (b.pushArray vs).array.getD i 0 = b.array.getD i 0) ∧
       (b.pushArray vs).length = b.length + vs.length ∧
       (b.pushArray vs).readPos = b.readPos) ∧
      b.push v = b.pushArray [v] ∧
      (vs.length = len → b.pushUint8ArrayChecked vs len = .ok (b.pushArray vs)) ∧
      (vs.length ≠ len → b.pushUint8ArrayChecked vs len = .error .sizeMismatch) := by
  intro b vs v len hc hlen
  obtain ⟨pad, hpad, hcap⟩ := reserve_spec b vs.length hc
  refine ⟨⟨?_, rfl, rfl⟩, rfl, ?_, ?_⟩
  · intro i hi
    simp only [SerialBuffer.pushArray]
    have htklen : ((b.reserve vs.length).array.take b.length).length = b.length := by
      rw [List.length_take]
      omega
    rw [List.append_assoc, getD_append_lt _ _ i 0 (by omega), List.getD_eq_getElem?_getD,
      List.getElem?_take_of_lt hi, hpad, ← List.getD_eq_getElem?_getD,
      getD_append_lt _ _ i 0 (by omega)]
  · intro h
    rw [SerialBuffer.pushUint8ArrayChecked, if_neg (fun hc2 => hc2 h)]
  · intro h
    rw [SerialBuffer.pushUint8ArrayChecked, if_pos h]

theorem c10_witness :
    0 < ([0, 0, 0] : List Nat).length ∧
    ((⟨[0, 0, 0], 2, 1⟩ : SerialBuffer).pushArray [7, 300]).array.getD 0 0
      = ([0, 0, 0] : List Nat).getD 0 0 ∧
    ((⟨[0, 0, 0], 2, 1⟩ : SerialBuffer).pushArray [7, 300]).array.getD 1 0
      = ([0, 0, 0] : List Nat).getD 1 0 ∧
    ((⟨[0, 0, 0], 2, 1⟩ : SerialBuffer).pushArray [7, 300]).length = 2 + 2 ∧
    ((⟨[0, 0, 0], 2, 1⟩ : SerialBuffer).pushArray [7, 300]).readPos = 1 ∧
    (⟨[0, 0, 0], 2, 1⟩ : SerialBuffer).push 9 = (⟨[0, 0, 0], 2, 1⟩ : SerialBuffer).pushArray [9] ∧
    (⟨[0, 0, 0], 2, 1⟩ : SerialBuffer).pushUint8ArrayChecked [7, 300] 2
      = .ok ((⟨[0, 0, 0], 2, 1⟩ : SerialBuffer).pushArray [7, 300]) := by
  have h1 := c10_append_only_writes ⟨[0, 0, 0], 2, 1⟩ [7, 300] 9 2 (by decide) (by decide)
  have h2 := c10_append_only_writes ⟨[0, 0, 0], 2, 1⟩ [9] 9 1 (by decide) (by decide)
  exact ⟨by decide, h1.1.1 0 (by decide), h1.1.1 1 (by decide), h1.1.2.1, h1.1.2.2,
    h2.2.1, h1.2.2.1 rfl⟩
